import Mathlib

/-!
Shallow embedding of the Graph-Coverage repository (src/graph_coverage.py and
src/prime_path_coverage.py) and verification of the frozen claims.

Python strings are modelled as `List Char`, Python dicts (insertion ordered)
as association lists, fallible code returns `Except PyErr`, and the
unbounded `while True` driver loops take an explicit fuel argument and
return `none` when the fuel runs out before the loop exits.
-/

namespace GCov

/-- Python strings, modelled as lists of characters. -/
abbrev Str : Type := List Char

/-- Shorthand turning a Lean string literal into its character list. -/
def pstr (s : String) : Str := s.data

/-- A directed graph, as built by `parse_graph`: an association list from a
node to its ordered neighbor list, mirroring the insertion-ordered dict. -/
abbrev Graph : Type := List (Str × List Str)

/-- First-match association lookup, `graph[node]`; `none` models `KeyError`. -/
def lookupG : Graph → Str → Option (List Str)
  | [], _ => none
  | e :: rest, k => if e.1 = k then some e.2 else lookupG rest k

/-- `node in graph` for the dict model. -/
def hasKey (g : Graph) (k : Str) : Bool := (lookupG g k).isSome

/-- `graph[node].append(nb)`: extend the neighbor list of the key `k`. -/
def appendNb (g : Graph) (k nb : Str) : Graph :=
  g.map fun e => if e.1 = k then (e.1, e.2 ++ [nb]) else e

/-- Errors raised by the Python code. -/
inductive PyErr : Type where
  /-- `ValueError` / the generic exceptions raised by `parse_graph`
  (`MalformedInputError` in the spec's taxonomy). -/
  | valueError : PyErr
  /-- `RuntimeError('Maximum iterations reached.')`
  (`IterationLimitExceeded` in the spec's taxonomy). -/
  | iterLimit : PyErr
  /-- Python `KeyError` from a dict lookup on an absent key
  (`UnknownNodeError` in the spec's taxonomy). -/
  | keyError : PyErr
  /-- Python `IndexError` from indexing an empty list. -/
  | indexError : PyErr
deriving DecidableEq, Repr

/-! ### Contiguous sub-sequence (factor) relation -/

/-- `p` is a contiguous sub-sequence of `q`. -/
def SubPath {α : Type} (p q : List α) : Prop := ∃ u v, u ++ p ++ v = q

/-- Boolean test that `p` is a leading segment of `q`. -/
def isPre {α : Type} [DecidableEq α] : List α → List α → Bool
  | [], _ => true
  | _ :: _, [] => false
  | a :: as, b :: bs => decide (a = b) && isPre as bs

/-- Boolean test for `SubPath`. -/
def isSub {α : Type} [DecidableEq α] (p : List α) : List α → Bool
  | [] => isPre p []
  | b :: bs => isPre p (b :: bs) || isSub p bs

theorem isPre_iff {α : Type} [DecidableEq α] (p q : List α) :
    isPre p q = true ↔ ∃ v, p ++ v = q := by
  induction p generalizing q with
  | nil => simp [isPre]
  | cons a as ih =>
    cases q with
    | nil => simp [isPre]
    | cons b bs =>
      simp only [isPre, Bool.and_eq_true, decide_eq_true_eq, ih]
      constructor
      · rintro ⟨rfl, v, rfl⟩; exact ⟨v, rfl⟩
      · rintro ⟨v, hv⟩
        simp only [List.cons_append, List.cons.injEq] at hv
        exact ⟨hv.1, v, hv.2⟩

theorem isSub_iff {α : Type} [DecidableEq α] (p q : List α) :
    isSub p q = true ↔ SubPath p q := by
  induction q with
  | nil =>
    simp only [isSub, isPre_iff, SubPath]
    constructor
    · rintro ⟨v, hv⟩; exact ⟨[], v, hv⟩
    · rintro ⟨u, v, huv⟩
      rcases List.append_eq_nil.mp huv with ⟨hu, hv⟩
      rcases List.append_eq_nil.mp hu with ⟨-, hp⟩
      exact ⟨[], by simp [hp]⟩
  | cons b bs ih =>
    simp only [isSub, Bool.or_eq_true, isPre_iff, ih, SubPath]
    constructor
    · rintro (⟨v, hv⟩ | ⟨u, v, huv⟩)
      · exact ⟨[], v, by simpa using hv⟩
      · exact ⟨b :: u, v, by simp [← huv]⟩
    · rintro ⟨u, v, huv⟩
      cases u with
      | nil => exact Or.inl ⟨v, by simpa using huv⟩
      | cons x xs =>
        simp only [List.cons_append, List.cons.injEq] at huv
        exact Or.inr ⟨xs, v, huv.2⟩

instance {α : Type} [DecidableEq α] (p q : List α) : Decidable (SubPath p q) :=
  decidable_of_iff _ (isSub_iff p q)

theorem SubPath.refl {α : Type} (p : List α) : SubPath p p := ⟨[], [], by simp⟩

theorem SubPath.length_le {α : Type} {p q : List α} (h : SubPath p q) :
    p.length ≤ q.length := by
  rcases h with ⟨u, v, rfl⟩; simp; omega

theorem SubPath.eq_of_length {α : Type} {p q : List α} (h : SubPath p q)
    (hl : p.length = q.length) : p = q := by
  rcases h with ⟨u, v, rfl⟩
  simp only [List.length_append] at hl
  have hu : u = [] := List.length_eq_zero.mp (by omega)
  have hv : v = [] := List.length_eq_zero.mp (by omega)
  simp [hu, hv]

theorem SubPath.sum_le {α : Type} (f : List α → Nat) {p q : List (List α)}
    (h : SubPath p q) : (p.map f).sum ≤ (q.map f).sum := by
  rcases h with ⟨u, v, rfl⟩; simp; omega

/-! ### Python `split` / `join` on the engine's separators -/

/-- Python `s.split(c)` for a single-character separator: empty pieces are
kept, and splitting the empty string yields `[""]`. -/
def pySplitOn (c : Char) : Str → List Str
  | [] => [[]]
  | a :: rest =>
    if a = c then [] :: pySplitOn c rest
    else
      match pySplitOn c rest with
      | [] => [[a]]
      | t :: ts => (a :: t) :: ts

/-- Python `c.join(parts)` for a single-character separator. -/
def joinWith (c : Char) : List Str → Str
  | [] => []
  | [p] => p
  | p :: q :: ps => p ++ c :: joinWith c (q :: ps)

theorem pySplitOn_ne_nil (c : Char) (s : Str) : pySplitOn c s ≠ [] := by
  cases s with
  | nil => simp [pySplitOn]
  | cons a rest =>
    simp only [pySplitOn]
    split
    · simp
    · split <;> simp

theorem pySplitOn_of_not_mem {c : Char} {s : Str} (h : c ∉ s) :
    pySplitOn c s = [s] := by
  induction s with
  | nil => rfl
  | cons a rest ih =>
    have hac : ¬ a = c := fun hh => h (hh ▸ List.mem_cons_self a rest)
    have hr : c ∉ rest := fun hh => h (List.mem_cons_of_mem a hh)
    simp only [pySplitOn, if_neg hac, ih hr]

theorem pySplitOn_append_cons {c : Char} {p : Str} (h : c ∉ p) (s : Str) :
    pySplitOn c (p ++ c :: s) = p :: pySplitOn c s := by
  induction p with
  | nil => simp [pySplitOn]
  | cons a rest ih =>
    have hac : ¬ a = c := fun hh => h (hh ▸ List.mem_cons_self a rest)
    have hr : c ∉ rest := fun hh => h (List.mem_cons_of_mem a hh)
    simp only [List.cons_append, pySplitOn, if_neg hac, List.append_eq]
    rw [ih hr]

/-- Split–join round trip: splitting the joined string recovers the pieces,
provided the separator occurs in none of them. -/
theorem pySplitOn_joinWith {c : Char} {ps : List Str} (hne : ps ≠ [])
    (h : ∀ p ∈ ps, c ∉ p) : pySplitOn c (joinWith c ps) = ps := by
  induction ps with
  | nil => exact absurd rfl hne
  | cons p rest ih =>
    cases rest with
    | nil =>
      simpa [joinWith] using pySplitOn_of_not_mem (h p (List.mem_cons_self p []))
    | cons q qs =>
      have hp : c ∉ p := h p (List.mem_cons_self _ _)
      have hrest : ∀ x ∈ q :: qs, c ∉ x := fun x hx => h x (List.mem_cons_of_mem p hx)
      simp only [joinWith, pySplitOn_append_cons hp, ih (by simp) hrest]

theorem joinWith_append {c : Char} {a b : List Str} (ha : a ≠ []) (hb : b ≠ []) :
    joinWith c (a ++ b) = joinWith c a ++ c :: joinWith c b := by
  induction a with
  | nil => exact absurd rfl ha
  | cons p rest ih =>
    cases rest with
    | nil =>
      cases b with
      | nil => exact absurd rfl hb
      | cons q qs => simp [joinWith]
    | cons q qs =>
      have h2 : joinWith c ((q :: qs) ++ b) = joinWith c (q :: qs) ++ c :: joinWith c b :=
        ih (by simp)
      show p ++ c :: joinWith c ((q :: qs) ++ b)
          = (p ++ c :: joinWith c (q :: qs)) ++ c :: joinWith c b
      rw [h2]
      simp

/-- Joining is monotone with respect to contiguous containment. -/
theorem joinWith_subPath {c : Char} {p q : List Str} (h : SubPath p q) :
    SubPath (joinWith c p) (joinWith c q) := by
  rcases h with ⟨u, v, rfl⟩
  rcases eq_or_ne p [] with rfl | hp
  · exact ⟨[], joinWith c (u ++ [] ++ v), by simp [joinWith]⟩
  rcases eq_or_ne u [] with rfl | hu
  · rcases eq_or_ne v [] with rfl | hv
    · simpa using SubPath.refl (joinWith c p)
    · rw [List.nil_append, joinWith_append hp hv]
      exact ⟨[], c :: joinWith c v, by simp⟩
  · rcases eq_or_ne v [] with rfl | hv
    · rw [List.append_nil, joinWith_append hu hp]
      exact ⟨joinWith c u ++ [c], [], by simp⟩
    · have hup : u ++ p ≠ [] := fun hh => hp (List.append_eq_nil.mp hh).2
      rw [joinWith_append hup hv, joinWith_append hu hp]
      exact ⟨joinWith c u ++ [c], c :: joinWith c v, by simp⟩

theorem joinWith_length {c : Char} {p : List Str} (hp : p ≠ []) :
    (joinWith c p).length + 1 = (p.map List.length).sum + p.length := by
  induction p with
  | nil => exact absurd rfl hp
  | cons a rest ih =>
    cases rest with
    | nil => simp [joinWith]
    | cons q qs =>
      have := ih (by simp)
      simp only [joinWith, List.length_append, List.length_cons, List.map_cons,
        List.sum_cons] at *
      omega

/-- Strict containment strictly shrinks the joined string. -/
theorem joinWith_length_lt {c : Char} {p q : List Str} (hp : p ≠ []) (h : SubPath p q)
    (hne : p ≠ q) : (joinWith c p).length < (joinWith c q).length := by
  have hq : q ≠ [] := by
    rintro rfl
    rcases h with ⟨u, v, huv⟩
    rcases List.append_eq_nil.mp huv with ⟨h1, -⟩
    exact hp (List.append_eq_nil.mp h1).2
  have hlen : p.length < q.length := by
    rcases Nat.lt_or_ge p.length q.length with h' | h'
    · exact h'
    · exact absurd (h.eq_of_length (Nat.le_antisymm h.length_le h')) hne
  have hsum : (p.map List.length).sum ≤ (q.map List.length).sum :=
    h.sum_le List.length
  have h1 := joinWith_length (c := c) hp
  have h2 := joinWith_length (c := c) hq
  omega

/-! ### Graph parsing (`parse_graph`, textually identical in both modules) -/

/-- The characters Python's `str.strip()` removes (ASCII whitespace). -/
def isPySpace (c : Char) : Bool :=
  c = ' ' || c = '\t' || c = '\n' || c = '\r' || c = '\x0b' || c = '\x0c'

/-- Python `s.strip()`. -/
def pyStrip (s : Str) : Str :=
  ((s.dropWhile isPySpace).reverse.dropWhile isPySpace).reverse

/-- The neighbor-loop body of `parse_graph`:
`graph[node].append(neighbor)` followed by
`if neighbor not in graph: graph[neighbor] = []`. -/
def addNeighbor (node : Str) (acc : Graph) (nb : Str) : Graph :=
  let acc1 := appendNb acc node nb
  if hasKey acc1 nb then acc1 else acc1 ++ [(nb, [])]

/-- One iteration of the line loop of `parse_graph`: skip blank and `#` lines,
otherwise record the first token as a node and every further token as one of
its neighbors (also registering each neighbor as a node with an empty
neighbor list when new). -/
def processLine (g : Graph) (rawLine : Str) : Except PyErr Graph :=
  let line := pyStrip rawLine
  if line = [] then .ok g
  else if line.head? = some '#' then .ok g
  else
    match pySplitOn ' ' line with
    | [] => .error .valueError
    | node :: neighbors =>
      let g1 := if hasKey g node then g else g ++ [(node, [])]
      .ok (neighbors.foldl (addNeighbor node) g1)

/-- `parse_graph` (the two modules' copies differ only in the exception class
and message of the guards). -/
def parseGraph (t : Str) : Except PyErr Graph := do
  let lines := pySplitOn '\n' (pyStrip t)
  let g ← lines.foldlM processLine ([] : Graph)
  if g = [] then .error .valueError else .ok g

/-- A line that the `parse_graph` loop skips: blank after stripping, or a
comment line. -/
def skippedLine (rawLine : Str) : Prop :=
  pyStrip rawLine = [] ∨ (pyStrip rawLine).head? = some '#'

instance (l : Str) : Decidable (skippedLine l) := by
  unfold skippedLine; infer_instance

/-- Graph-model invariant: every node mentioned in an adjacency list is
itself a key. -/
def ClosedG (g : Graph) : Prop := ∀ e ∈ g, ∀ m ∈ e.2, hasKey g m = true

instance (g : Graph) : Decidable (ClosedG g) := by
  unfold ClosedG; infer_instance

/-- A string occurring anywhere in the graph (as a key or inside an
adjacency list). -/
def OccursIn (g : Graph) (x : Str) : Prop := ∃ e ∈ g, x = e.1 ∨ x ∈ e.2

/-- No node identifier of the graph contains the path separator. -/
def GraphSpaceFree (g : Graph) : Prop :=
  ∀ e ∈ g, ' ' ∉ e.1 ∧ ∀ m ∈ e.2, ' ' ∉ m

instance (g : Graph) : Decidable (GraphSpaceFree g) := by
  unfold GraphSpaceFree; infer_instance

/-! ### Prime-path growth engine (round logic shared by both modules) -/

/-- Result of processing one path inside a growth round: the (possibly
extended) path, the forked paths it appended, and whether any change was
made while processing it. -/
structure GrowRes : Type where
  path : List Str
  forks : List (List Str)
  changed : Bool
deriving DecidableEq, Repr

/-- The `for neighbor in neighbors` loop of the growth round. `pset` is the
duplicate-check set (the path as of the loop start), `first` is `path[0]`,
`pcpy` the pre-round copy of the path, `hasOne` records
`len(neighbors) == 1`; the remaining neighbors, the current path and the
`split_path` flag are the loop state. -/
def growNeighbors (pset : List Str) (first : Str) (pcpy : List Str) (hasOne : Bool) :
    List Str → List Str → Bool → GrowRes
  | [], path, _ => ⟨path, [], false⟩
  | nb :: nbs, path, split =>
    if nb ∈ pset ∧ nb ≠ first then
      growNeighbors pset first pcpy hasOne nbs path split
    else if hasOne then
      let r := growNeighbors pset first pcpy hasOne nbs (path ++ [nb]) split
      ⟨r.path, r.forks, true⟩
    else if split then
      let r := growNeighbors pset first pcpy hasOne nbs path split
      ⟨r.path, (pcpy ++ [nb]) :: r.forks, true⟩
    else
      let r := growNeighbors pset first pcpy hasOne nbs (path ++ [nb]) true
      ⟨r.path, r.forks, true⟩

/-- Process one path of the round: skip it when it contains a duplicate
node, otherwise look up the neighbors of its last node and run the neighbor
loop. -/
def stepPath (g : Graph) (path : List Str) : Except PyErr GrowRes :=
  if ¬ path.Nodup then .ok ⟨path, [], false⟩
  else
    match path.getLast? with
    | none => .error .indexError
    | some lastNode =>
      match lookupG g lastNode with
      | none => .error .keyError
      | some neighbors =>
        .ok (growNeighbors path path.headI path
          (decide (neighbors.length = 1)) neighbors path false)

/-- One full growth round over the snapshot of paths taken at round start:
paths are processed in index order, in-place extensions replace the entry,
and forked paths are collected (they land behind the snapshot, outside the
round's index range). -/
def growRound (g : Graph) :
    List (List Str) → Except PyErr (List (List Str) × List (List Str) × Bool)
  | [] => .ok ([], [], false)
  | p :: ps => do
    let r ← stepPath g p
    let rest ← growRound g ps
    .ok (r.path :: rest.1, r.forks ++ rest.2.1, r.changed || rest.2.2)

/-- A growth round including the append of the forked paths: the observable
effect of one round on the `paths` list, plus the `made_changes` flag. -/
def growRoundAll (g : Graph) (paths : List (List Str)) :
    Except PyErr (List (List Str) × Bool) := do
  let r ← growRound g paths
  .ok (r.1 ++ r.2.1, r.2.2)

/-- The `progress` field of the computation-state dict. The source stores a
string; the engine only distinguishes the initial value, an iteration
message, `'computed'` and `'cleaned'`, so the message text is not
modelled. -/
inductive Prog : Type where
  | initP : Prog
  | working : Prog
  | computed : Prog
  | cleaned : Prog
deriving DecidableEq, Repr

/-- `state['progress'] in ['computed', 'cleaned']`. -/
def terminalProg (p : Prog) : Prop := p = .computed ∨ p = .cleaned

instance (p : Prog) : Decidable (terminalProg p) := by
  unfold terminalProg; infer_instance

/-- The prime-path computation state (`graph` is passed separately since the
source never mutates it). -/
structure PState : Type where
  paths : List (List Str)
  iteration : Nat
  progress : Prog
deriving DecidableEq, Repr

/-- `init_computation_state` (its prime-path fields). -/
def initPState : PState := ⟨[], 0, .initP⟩

/-- `_step_prime_paths`: one iteration of the prime-path computation. -/
def stepPrime (g : Graph) (maxIters : Int) (s : PState) : Except PyErr PState :=
  if terminalProg s.progress then .ok s
  else
    let paths := if s.iteration = 0 then g.map (fun e => [e.1]) else s.paths
    let iteration := s.iteration + 1
    if (iteration : Int) = maxIters then .error .iterLimit
    else do
      let r ← growRoundAll g paths
      .ok ⟨r.1, iteration, if r.2 then .working else .computed⟩

/-! ### Sub-path elimination of graph_coverage.py -/

/-- The removal marking of `_cleanup_prime_paths`: an entry is blanked iff
some entry strictly after it contains it as a substring. The Python loop
writes only index `i` and reads `paths[j]` only for `j > i`, which are
still unmodified, so the imperative two-level loop is equivalent to this
one-pass recursion over the sorted list. -/
def markRemoved : List Str → List Str
  | [] => []
  | s :: rest => (if rest.any (fun t => isSub s t) then [] else s) :: markRemoved rest

/-- The comparison behind Python's `sorted(..., key=len)`. -/
def lenLe (a b : Str) : Bool := decide (a.length ≤ b.length)

/-- Python's `sorted`/`list.sort` is a stable sort, and a stable sort by a
total preorder is extensionally unique, so the (stable, structurally
recursive) insertion sort models `sorted(strs, key=len)` faithfully. -/
def sortByLen (l : List Str) : List Str :=
  l.insertionSort (fun a b => a.length ≤ b.length)

/-- Python `<` on strings (lexicographic by code point). -/
def strLt : Str → Str → Bool
  | _, [] => false
  | [], _ :: _ => true
  | a :: as, b :: bs => if a = b then strLt as bs else decide (a < b)

/-- Python `<` on lists of strings. -/
def pathLt : List Str → List Str → Bool
  | _, [] => false
  | [], _ :: _ => true
  | a :: as, b :: bs => if a = b then pathLt as bs else strLt a b

/-- The sort key `(len(x), x)` of the final sort, as a `≤` test. -/
def pathKeyLe (a b : List Str) : Bool :=
  decide (a.length < b.length) ||
    (decide (a.length = b.length) && (pathLt a b || decide (a = b)))

/-- `paths.sort(key = lambda x: (len(x), x))` as a stable insertion sort
(the key is injective here, so any sort by it agrees with Python's). -/
def sortByKey (l : List (List Str)) : List (List Str) :=
  l.insertionSort (fun a b => pathKeyLe a b = true)

/-- `_cleanup_prime_paths` as a function of the path list: join each path
with spaces, sort ascending by length, blank every string contained in a
later string, split the surviving strings back into paths and sort them by
`(len, lex)`. -/
def cleanup1 (paths : List (List Str)) : List (List Str) :=
  sortByKey (((markRemoved (sortByLen (paths.map (joinWith ' ')))).filter
    (fun s => !s.isEmpty)).map (pySplitOn ' '))

/-- The `while True` loop of `compute_prime_paths`, with explicit fuel;
`none` means the fuel ran out before the loop exited. -/
def runPrime (g : Graph) (maxIters : Int) : Nat → PState → Except PyErr (Option PState)
  | 0, _ => .ok none
  | fuel + 1, s => do
    let s' ← stepPrime g maxIters s
    if s'.progress = .computed then .ok (some s')
    else runPrime g maxIters fuel s'

/-- `compute_prime_paths(graph, max_iters)` of graph_coverage.py. -/
def computePrime (g : Graph) (maxIters : Int) (fuel : Nat) :
    Except PyErr (Option (List (List Str))) := do
  match ← runPrime g maxIters fuel initPState with
  | none => .ok none
  | some s => .ok (some (cleanup1 s.paths))

/-- Iterated `_step_prime_paths` from the initial state: the Step-Driver
view of the working set after `k` rounds. -/
def stepsPrime (g : Graph) (maxIters : Int) : Nat → Except PyErr PState
  | 0 => .ok initPState
  | k + 1 => do stepPrime g maxIters (← stepsPrime g maxIters k)

/-! ### Edge-pair engine -/

/-- The edge-pair computation state (the prime-path fields plus the
`remaining_nodes` queue, which `_step_edge_pairs` adds on its first
round). -/
structure EState : Type where
  paths : List (List Str)
  iteration : Nat
  progress : Prog
  remaining : List Str
deriving DecidableEq, Repr

/-- `init_computation_state` (edge-pair view; `remaining_nodes` not yet
present, modelled as the empty queue). -/
def initEState : EState := ⟨[], 0, .initP, []⟩

/-- The nested neighbor loops of `_step_edge_pairs` for the popped node. -/
def edgeTriples (g : Graph) (n : Str) : Except PyErr (List (List Str)) :=
  match lookupG g n with
  | none => .error .keyError
  | some nbs => do
    let tss ← nbs.mapM (fun m =>
      match lookupG g m with
      | none => .error .keyError
      | some ks => .ok (ks.map (fun k => [n, m, k])))
    .ok tss.flatten

/-- `_step_edge_pairs`: one iteration of the edge-pair computation. -/
def stepEdge (g : Graph) (maxIters : Int) (s : EState) : Except PyErr EState :=
  if terminalProg s.progress then .ok s
  else
    let remaining := if s.iteration = 0 then g.map (·.1) else s.remaining
    let iteration := s.iteration + 1
    if (iteration : Int) = maxIters then .error .iterLimit
    else
      match remaining with
      | [] => .error .indexError
      | n :: rest => do
        let ts ← edgeTriples g n
        .ok ⟨s.paths ++ ts, iteration,
          if rest = [] then .computed else .working, rest⟩

/-- The `while True` loop of `compute_edge_pairs`, with explicit fuel. -/
def runEdge (g : Graph) (maxIters : Int) : Nat → EState → Except PyErr (Option EState)
  | 0, _ => .ok none
  | fuel + 1, s => do
    let s' ← stepEdge g maxIters s
    if s'.progress = .computed then .ok (some s')
    else runEdge g maxIters fuel s'

/-- `compute_edge_pairs(graph, max_iters)`. -/
def computeEdgePairs (g : Graph) (maxIters : Int) (fuel : Nat) :
    Except PyErr (Option (List (List Str))) := do
  match ← runEdge g maxIters fuel initEState with
  | none => .ok none
  | some s => .ok (some s.paths)

/-- The direct enumeration of all edge pairs: one `[n, m, k]` entry per
`n→m` and `m→k` edge pair, counted with multiplicity, nodes in declaration
order. -/
def edgePairsSpec (g : Graph) : List (List Str) :=
  g.flatMap fun e => e.2.flatMap fun m => ((lookupG g m).getD []).map fun k => [e.1, m, k]

/-! ### prime_path_coverage.py: the synchronous debug-narrative variant -/

/-- The growth loop of `prime_path_coverage.compute_prime_paths`: round
logic identical to `_step_prime_paths` (the debug narration does not affect
`paths` and is not modelled), hard-wired counter cap of `100_000`, explicit
fuel for the `while True` loop. -/
def growPPC (g : Graph) : Nat → Nat → List (List Str) →
    Except PyErr (Option (List (List Str)))
  | 0, _, _ => .ok none
  | fuel + 1, counter, paths =>
    let counter := counter + 1
    if counter = 100000 then .error .iterLimit
    else do
      let r ← growRoundAll g paths
      if r.2 then growPPC g fuel counter r.1 else .ok (some r.1)

/-- Python `repr` of a string over the repository's identifier alphabet:
quote choice follows CPython (single quotes unless the string contains a
single quote and no double quote), with backslash, quote, newline,
carriage-return and tab escapes. (`\xNN` escapes of other control
characters are not modelled; no claim exercises them.) -/
def reprQuote (s : Str) : Char :=
  if '\'' ∈ s ∧ '"' ∉ s then '"' else '\''

def reprEsc (q c : Char) : Str :=
  if c = '\\' then ['\\', '\\']
  else if c = q then ['\\', q]
  else if c = '\n' then ['\\', 'n']
  else if c = '\r' then ['\\', 'r']
  else if c = '\t' then ['\\', 't']
  else [c]

def reprStr (s : Str) : Str :=
  let q := reprQuote s
  q :: (s.flatMap (reprEsc q) ++ [q])

/-- Join with a multi-character separator (Python `sep.join`). -/
def joinStrWith (sep : Str) : List Str → Str
  | [] => []
  | [p] => p
  | p :: q :: ps => p ++ sep ++ joinStrWith sep (q :: ps)

/-- Python `str(list_of_strings)`. -/
def reprList (p : List Str) : Str :=
  '[' :: (joinStrWith (pstr ", ") (p.map reprStr) ++ [']'])

/-- `str(paths[i])[1:-1]`. -/
def reprInner (p : List Str) : Str := ((reprList p).drop 1).dropLast

/-- One step `i` of the sub-path removal loop of prime_path_coverage.py:
clear `paths[i]` iff the bracket-stripped repr of `paths[i]` occurs in the
repr of some other entry. Unlike graph_coverage.py this reads entries on
both sides of `i` in their current, partially cleared state, so the loop is
modelled with an explicit index over the evolving list. -/
def cleanup2Step (paths : List (List Str)) (i : Nat) : List (List Str) :=
  let inner := reprInner (paths.getD i [])
  if (List.range paths.length).any
      (fun j => decide (j ≠ i) && isSub inner (reprList (paths.getD j []))) then
    paths.set i []
  else paths

def cleanup2Go : List (List Str) → Nat → Nat → List (List Str)
  | paths, _, 0 => paths
  | paths, i, fuel + 1 => cleanup2Go (cleanup2Step paths i) (i + 1) fuel

/-- The sub-path removal, filter and sort tail of
`prime_path_coverage.compute_prime_paths`. -/
def cleanup2 (paths : List (List Str)) : List (List Str) :=
  sortByKey ((cleanup2Go paths 0 paths.length).filter (fun p => !p.isEmpty))

/-- `prime_path_coverage.compute_prime_paths(graph)`, `'paths'` component,
with explicit fuel. -/
def computePrimePPC (g : Graph) (fuel : Nat) :
    Except PyErr (Option (List (List Str))) := do
  match ← growPPC g fuel 0 (g.map (fun e => [e.1])) with
  | none => .ok none
  | some ps => .ok (some (cleanup2 ps))

/-- A path with no repeated node, except that the last node may equal the
first (a cyclic prime-path candidate). -/
def PathOK (p : List Str) : Prop :=
  p ≠ [] ∧ (p.Nodup ∨ (p.dropLast.Nodup ∧ p.head? = p.getLast?))

instance (p : List Str) : Decidable (PathOK p) := by
  unfold PathOK; infer_instance

/-! ## Basic `Except` computation lemmas -/

theorem exbind_ok {ε α β : Type} (a : α) (f : α → Except ε β) :
    (Except.ok a >>= f) = f a := rfl

theorem exbind_error {ε α β : Type} (e : ε) (f : α → Except ε β) :
    ((Except.error e : Except ε α) >>= f) = Except.error e := rfl

/-! ## Parsing lemmas -/

theorem processLine_skipped {g : Graph} {l : Str} (h : skippedLine l) :
    processLine g l = .ok g := by
  rcases h with h | h
  · simp [processLine, h]
  · have hne : ¬ (pyStrip l = []) := by
      intro h0; rw [h0] at h; simp at h
    simp [processLine, hne, h]

theorem length_le_addNeighbor (node : Str) (acc : Graph) (nb : Str) :
    acc.length ≤ (addNeighbor node acc nb).length := by
  simp only [addNeighbor]
  split <;> simp [appendNb]

theorem length_le_foldl_addNeighbor (node : Str) (nbs : List Str) (acc : Graph) :
    acc.length ≤ (nbs.foldl (addNeighbor node) acc).length := by
  induction nbs generalizing acc with
  | nil => simp
  | cons nb rest ih =>
    simp only [List.foldl_cons]
    exact le_trans (length_le_addNeighbor node acc nb) (ih _)

theorem processLine_not_skipped {g : Graph} {l : Str} (h : ¬ skippedLine l) :
    ∃ g', processLine g l = .ok g' ∧ g' ≠ [] := by
  unfold processLine
  rw [skippedLine, not_or] at h
  obtain ⟨h1, h2⟩ := h
  rw [if_neg h1, if_neg h2]
  cases hsp : pySplitOn ' ' (pyStrip l) with
  | nil => exact absurd hsp (pySplitOn_ne_nil _ _)
  | cons node nbs =>
    refine ⟨_, rfl, ?_⟩
    have hg1 : (if hasKey g node then g else g ++ [(node, [])]) ≠ [] := by
      split
      case isTrue hk =>
        intro h0
        rw [h0] at hk
        simp [hasKey, lookupG] at hk
      case isFalse hk => simp
    have hlen := length_le_foldl_addNeighbor node nbs
      (if hasKey g node then g else g ++ [(node, [])])
    have hpos : 0 < (if hasKey g node then g else g ++ [(node, [])]).length :=
      List.length_pos.mpr hg1
    intro h0
    rw [h0] at hlen
    simp only [List.length_nil, Nat.le_zero] at hlen
    omega

theorem foldlM_processLine (lines : List Str) :
    ∀ g : Graph, ∃ g', lines.foldlM processLine g = .ok g' ∧
      (g' = [] ↔ (g = [] ∧ ∀ l ∈ lines, skippedLine l)) := by
  induction lines with
  | nil => exact fun g => ⟨g, rfl, by simp⟩
  | cons l ls ih =>
    intro g
    by_cases hl : skippedLine l
    · obtain ⟨g', hok, hiff⟩ := ih g
      refine ⟨g', ?_, ?_⟩
      · rw [List.foldlM_cons, processLine_skipped hl, exbind_ok]
        exact hok
      · rw [hiff]
        constructor
        · rintro ⟨rfl, hall⟩
          exact ⟨rfl, fun x hx => by
            rcases List.mem_cons.mp hx with rfl | hx
            · exact hl
            · exact hall x hx⟩
        · rintro ⟨rfl, hall⟩
          exact ⟨rfl, fun x hx => hall x (List.mem_cons_of_mem l hx)⟩
    · obtain ⟨g1, hok1, hne1⟩ := processLine_not_skipped (g := g) hl
      obtain ⟨g', hok, hiff⟩ := ih g1
      refine ⟨g', ?_, ?_⟩
      · rw [List.foldlM_cons, hok1, exbind_ok]
        exact hok
      · rw [hiff]
        constructor
        · rintro ⟨h0, -⟩
          exact absurd h0 hne1
        · rintro ⟨-, hall⟩
          exact absurd (hall l (List.mem_cons_self l ls)) hl

theorem parseGraph_eq (t : Str) :
    parseGraph t = ((pySplitOn '\n' (pyStrip t)).foldlM processLine []
      >>= fun g => if g = [] then .error .valueError else .ok g) := rfl

theorem mem_appendNb {g : Graph} {a b : Str} {e : Str × List Str}
    (h : e ∈ appendNb g a b) :
    ∃ e0 ∈ g, e.1 = e0.1 ∧ ∀ m ∈ e.2, m ∈ e0.2 ∨ m = b := by
  rw [appendNb] at h
  obtain ⟨e0, he0, hfe⟩ := List.mem_map.mp h
  by_cases hk : e0.1 = a
  · rw [if_pos hk] at hfe
    subst hfe
    exact ⟨e0, he0, rfl, fun m hm => by
      rcases List.mem_append.mp hm with hm | hm
      · exact Or.inl hm
      · exact Or.inr (List.mem_singleton.mp hm)⟩
  · rw [if_neg hk] at hfe
    subst hfe
    exact ⟨e0, he0, rfl, fun m hm => Or.inl hm⟩

theorem hasKey_of_mem {g : Graph} {e : Str × List Str} (h : e ∈ g) :
    hasKey g e.1 = true := by
  induction g with
  | nil => simp at h
  | cons a rest ih =>
    rcases List.mem_cons.mp h with rfl | h
    · simp [hasKey, lookupG]
    · by_cases hk : a.1 = e.1
      · simp [hasKey, lookupG, hk]
      · simpa [hasKey, lookupG, hk] using ih h

theorem hasKey_append {g h : Graph} {k : Str} (hk : hasKey g k = true) :
    hasKey (g ++ h) k = true := by
  induction g with
  | nil => simp [hasKey, lookupG] at hk
  | cons e rest ih =>
    by_cases he : e.1 = k
    · simp [hasKey, lookupG, he]
    · simp only [hasKey, lookupG, he, if_false, List.cons_append] at *
      exact ih hk

theorem hasKey_append_self (g : Graph) (k : Str) (v : List Str) :
    hasKey (g ++ [(k, v)]) k = true := by
  induction g with
  | nil => simp [hasKey, lookupG]
  | cons e rest ih =>
    by_cases he : e.1 = k
    · simp [hasKey, lookupG, he]
    · simpa [hasKey, lookupG, he] using ih

theorem hasKey_appendNb (g : Graph) (a b k : Str) :
    hasKey (appendNb g a b) k = hasKey g k := by
  induction g with
  | nil => rfl
  | cons e rest ih =>
    have hmap : appendNb (e :: rest) a b
        = (if e.1 = a then (e.1, e.2 ++ [b]) else e) :: appendNb rest a b := by
      simp [appendNb]
    rw [hmap]
    by_cases ha : e.1 = a
    · rw [if_pos ha]
      show (if e.1 = k then some (e.2 ++ [b]) else lookupG (appendNb rest a b) k).isSome
          = (if e.1 = k then some e.2 else lookupG rest k).isSome
      by_cases hk : e.1 = k
      · rw [if_pos hk, if_pos hk]; rfl
      · rw [if_neg hk, if_neg hk]; exact ih
    · rw [if_neg ha]
      show (if e.1 = k then some e.2 else lookupG (appendNb rest a b) k).isSome
          = (if e.1 = k then some e.2 else lookupG rest k).isSome
      by_cases hk : e.1 = k
      · rw [if_pos hk, if_pos hk]
      · rw [if_neg hk, if_neg hk]; exact ih

theorem closed_addNeighbor {acc : Graph} (hc : ClosedG acc) (node nb : Str) :
    ClosedG (addNeighbor node acc nb) := by
  simp only [addNeighbor]
  split
  case isTrue hk =>
    intro e he m hm
    obtain ⟨e0, he0, -, hm2⟩ := mem_appendNb he
    rcases hm2 m hm with h' | rfl
    · rw [hasKey_appendNb]; exact hc e0 he0 m h'
    · exact hk
  case isFalse hk =>
    intro e he m hm
    rcases List.mem_append.mp he with he | he
    · obtain ⟨e0, he0, -, hm2⟩ := mem_appendNb he
      rcases hm2 m hm with h' | rfl
      · exact hasKey_append (by rw [hasKey_appendNb]; exact hc e0 he0 m h')
      · exact hasKey_append_self _ _ _
    · rw [List.mem_singleton.mp he] at hm
      simp at hm

theorem closed_foldl_addNeighbor {acc : Graph} (hc : ClosedG acc) (node : Str)
    (nbs : List Str) : ClosedG (nbs.foldl (addNeighbor node) acc) := by
  induction nbs generalizing acc with
  | nil => exact hc
  | cons nb rest ih =>
    simp only [List.foldl_cons]
    exact ih (closed_addNeighbor hc node nb)

theorem closed_processLine {g g' : Graph} (hc : ClosedG g) {l : Str}
    (h : processLine g l = .ok g') : ClosedG g' := by
  simp only [processLine] at h
  split at h
  · cases h; exact hc
  · split at h
    · cases h; exact hc
    · split at h
      · cases h
      case h_2 node nbs heq =>
        cases h
        refine closed_foldl_addNeighbor ?_ node nbs
        split
        · exact hc
        · intro e he m hm
          rcases List.mem_append.mp he with he | he
          · exact hasKey_append (hc e he m hm)
          · rw [List.mem_singleton.mp he] at hm
            simp at hm

theorem closed_foldlM_lines (lines : List Str) :
    ∀ {g g' : Graph}, ClosedG g → lines.foldlM processLine g = .ok g' →
      ClosedG g' := by
  induction lines with
  | nil =>
    intro g g' hc h
    rw [List.foldlM_nil] at h
    cases h
    exact hc
  | cons l ls ih =>
    intro g g' hc h
    rw [List.foldlM_cons] at h
    cases hp : processLine g l with
    | error e => rw [hp, exbind_error] at h; cases h
    | ok g1 =>
      rw [hp, exbind_ok] at h
      exact ih (closed_processLine hc hp) h

theorem parseGraph_closed {t : Str} {g : Graph} (h : parseGraph t = .ok g) :
    ClosedG g := by
  rw [parseGraph_eq] at h
  cases hf : (pySplitOn '\n' (pyStrip t)).foldlM processLine [] with
  | error e => rw [hf, exbind_error] at h; cases h
  | ok g0 =>
    rw [hf, exbind_ok] at h
    split at h
    · cases h
    · cases h
      exact closed_foldlM_lines _ (by intro e he; simp at he) hf

/-! ## Claims C8 and C10 -/

/-- C8: `parse_graph` raises `MalformedInputError` exactly when, after
discarding blank lines and lines beginning with `#`, the input contains no
node/edge data; every input with at least one non-blank non-comment line
after trimming yields a graph without raising. -/
theorem c8_parse_error_iff_no_data (t : Str) :
    (∃ e, parseGraph t = .error e) ↔
      ∀ l ∈ pySplitOn '\n' (pyStrip t), skippedLine l := by
  obtain ⟨g', hok, hiff⟩ := foldlM_processLine (pySplitOn '\n' (pyStrip t)) []
  rw [parseGraph_eq, hok, exbind_ok]
  by_cases hg : g' = []
  · rw [if_pos hg]
    exact iff_of_true ⟨.valueError, rfl⟩ (hiff.mp hg).2
  · rw [if_neg hg]
    constructor
    · rintro ⟨e, he⟩
      cases he
    · intro hall
      exact absurd (hiff.mpr ⟨rfl, hall⟩) hg

/-- C8 witness: the comment-only input from the spec's Scenario C is all
skipped lines and indeed raises. -/
theorem c8_witness :
    (∀ l ∈ pySplitOn '\n' (pyStrip (pstr "# only a comment")), skippedLine l) ∧
      (∃ e, parseGraph (pstr "# only a comment") = .error e) :=
  ⟨by decide, (c8_parse_error_iff_no_data (pstr "# only a comment")).mpr (by decide)⟩

/-- C10: a data line with two consecutive spaces produces the empty string
as a real node: parsing `"a  b"` yields keys `a`, `` and `b`, with `a`'s
neighbor list `["", "b"]`. -/
theorem c10_empty_token_is_node :
    parseGraph (pstr "a  b") =
      .ok [(pstr "a", [[], pstr "b"]), ([], []), (pstr "b", [])] := rfl

/-! ## Growth-round characterization -/

/-- The neighbors the growth loop accepts for a live path: those not already
in the path, plus any occurrence of the path's first node. -/
def accepted (pset : List Str) (first : Str) (nbs : List Str) : List Str :=
  nbs.filter (fun nb => !decide (nb ∈ pset ∧ nb ≠ first))

/-- The net effect of processing one live path: with no accepted neighbor
the path is unchanged; otherwise the first accepted neighbor extends it in
place and every further accepted neighbor forks a copy. -/
def growResOf (p : List Str) (nbs : List Str) : GrowRes :=
  match accepted p p.headI nbs with
  | [] => ⟨p, [], false⟩
  | a :: rest => ⟨p ++ [a], rest.map (fun nb => p ++ [nb]), true⟩

theorem accepted_nil (pset : List Str) (first : Str) :
    accepted pset first [] = [] := rfl

theorem accepted_cons_pos (pset : List Str) (first : Str) {nb : Str}
    (h : nb ∈ pset ∧ nb ≠ first) (nbs : List Str) :
    accepted pset first (nb :: nbs) = accepted pset first nbs := by
  simp only [accepted, List.filter_cons, decide_eq_true h, Bool.not_true,
    Bool.false_eq_true, if_false]

theorem accepted_cons_neg (pset : List Str) (first : Str) {nb : Str}
    (h : ¬ (nb ∈ pset ∧ nb ≠ first)) (nbs : List Str) :
    accepted pset first (nb :: nbs) = nb :: accepted pset first nbs := by
  simp only [accepted, List.filter_cons, decide_eq_false h, Bool.not_false, if_true]

theorem mem_accepted {pset : List Str} {first : Str} {nbs : List Str} {nb : Str}
    (h : nb ∈ accepted pset first nbs) : nb ∈ nbs ∧ (nb ∉ pset ∨ nb = first) := by
  have := List.mem_filter.mp h
  refine ⟨this.1, ?_⟩
  have h2 := this.2
  simp only [Bool.not_eq_eq_eq_not, Bool.not_true, decide_eq_false_iff_not] at h2
  by_cases hm : nb ∈ pset
  · exact Or.inr (by_contra fun hne => h2 ⟨hm, hne⟩)
  · exact Or.inl hm

theorem growNeighbors_hasOne (pset : List Str) (first : Str) (pcpy : List Str)
    (nbs : List Str) : ∀ (path : List Str) (split : Bool),
    growNeighbors pset first pcpy true nbs path split
      = ⟨path ++ accepted pset first nbs, [], !(accepted pset first nbs).isEmpty⟩ := by
  induction nbs with
  | nil => intro path split; simp [growNeighbors, accepted_nil]
  | cons nb rest ih =>
    intro path split
    by_cases hr : nb ∈ pset ∧ nb ≠ first
    · rw [accepted_cons_pos pset first hr]
      simp only [growNeighbors, if_pos hr]
      exact ih path split
    · rw [accepted_cons_neg pset first hr]
      simp only [growNeighbors, if_neg hr, if_pos rfl, ih (path ++ [nb]) split]
      simp

theorem growNeighbors_split (pset : List Str) (first : Str) (pcpy : List Str)
    (nbs : List Str) : ∀ (path : List Str),
    growNeighbors pset first pcpy false nbs path true
      = ⟨path, (accepted pset first nbs).map (fun nb => pcpy ++ [nb]),
          !(accepted pset first nbs).isEmpty⟩ := by
  induction nbs with
  | nil => intro path; simp [growNeighbors, accepted_nil]
  | cons nb rest ih =>
    intro path
    by_cases hr : nb ∈ pset ∧ nb ≠ first
    · rw [accepted_cons_pos pset first hr]
      simp only [growNeighbors, if_pos hr]
      exact ih path
    · rw [accepted_cons_neg pset first hr]
      simp only [growNeighbors, if_neg hr, ih path]
      simp

theorem growNeighbors_noSplit (pset : List Str) (first : Str) (pcpy : List Str)
    (nbs : List Str) : ∀ (path : List Str),
    growNeighbors pset first pcpy false nbs path false
      = match accepted pset first nbs with
        | [] => ⟨path, [], false⟩
        | a :: rest => ⟨path ++ [a], rest.map (fun nb => pcpy ++ [nb]), true⟩ := by
  induction nbs with
  | nil => intro path; simp [growNeighbors, accepted_nil]
  | cons nb rest ih =>
    intro path
    by_cases hr : nb ∈ pset ∧ nb ≠ first
    · rw [accepted_cons_pos pset first hr]
      simp only [growNeighbors, if_pos hr]
      exact ih path
    · rw [accepted_cons_neg pset first hr]
      simp only [growNeighbors, if_neg hr, growNeighbors_split pset first pcpy rest]
      simp

theorem stepPath_eq_growResOf {g : Graph} {p : List Str} (hnd : p.Nodup)
    {l : Str} (hl : p.getLast? = some l) {nbs : List Str}
    (hlk : lookupG g l = some nbs) :
    stepPath g p = .ok (growResOf p nbs) := by
  unfold stepPath
  rw [if_neg (not_not_intro hnd), hl]
  simp only [hlk]
  congr 1
  by_cases h1 : nbs.length = 1
  · rw [decide_eq_true h1, growNeighbors_hasOne]
    cases hacc : accepted p p.headI nbs with
    | nil => simp [growResOf, hacc]
    | cons a rest =>
      have hlen : (accepted p p.headI nbs).length ≤ nbs.length :=
        List.length_filter_le _ _
      rw [hacc, h1] at hlen
      cases rest with
      | nil => simp [growResOf, hacc]
      | cons b bs => simp at hlen
  · rw [decide_eq_false h1, growNeighbors_noSplit]
    cases hacc : accepted p p.headI nbs with
    | nil => simp [growResOf, hacc]
    | cons a rest => simp [growResOf, hacc]

theorem getLast?_ne_nil {p : List Str} {l : Str} (h : p.getLast? = some l) :
    p ≠ [] := by
  rintro rfl; simp at h

/-- C4: during a growth round, a neighbor of a live (duplicate-free) path's
last node that already occurs in the path is rejected — it contributes no
extension and no fork — unless it equals the path's first node; a neighbor
equal to the first node is accepted and extends or forks the path,
producing a path whose last node equals its first. -/
theorem c4_cycle_closure (g : Graph) (p : List Str) (l : Str) (nbs : List Str)
    (hnd : p.Nodup) (hl : p.getLast? = some l) (hlk : lookupG g l = some nbs) :
    stepPath g p = .ok (growResOf p nbs) ∧
    (∀ q, q ∈ (growResOf p nbs).path :: (growResOf p nbs).forks →
      q = p ∨ ∃ nb, nb ∈ nbs ∧ (nb ∉ p ∨ nb = p.headI) ∧ q = p ++ [nb]) ∧
    ((∀ nb ∈ nbs, nb ∈ p ∧ nb ≠ p.headI) → growResOf p nbs = ⟨p, [], false⟩) ∧
    (p.headI ∈ nbs →
      (growResOf p nbs).changed = true ∧
      (p ++ [p.headI]) ∈ (growResOf p nbs).path :: (growResOf p nbs).forks ∧
      (p ++ [p.headI]).getLast? = (p ++ [p.headI]).head?) := by
  refine ⟨stepPath_eq_growResOf hnd hl hlk, ?_, ?_, ?_⟩
  · intro q hq
    cases hacc : accepted p p.headI nbs with
    | nil =>
      simp only [growResOf, hacc] at hq
      rcases List.mem_cons.mp hq with rfl | hq
      · exact Or.inl rfl
      · simp at hq
    | cons a rest =>
      simp only [growResOf, hacc] at hq
      rcases List.mem_cons.mp hq with rfl | hq
      · obtain ⟨ha1, ha2⟩ := mem_accepted (hacc ▸ List.mem_cons_self a rest)
        exact Or.inr ⟨a, ha1, ha2, rfl⟩
      · obtain ⟨nb, hnb, rfl⟩ := List.mem_map.mp hq
        obtain ⟨h1, h2⟩ := mem_accepted (hacc ▸ List.mem_cons_of_mem a hnb)
        exact Or.inr ⟨nb, h1, h2, rfl⟩
  · intro hall
    have hacc : accepted p p.headI nbs = [] := by
      simp only [accepted]
      rw [List.filter_eq_nil_iff]
      intro nb hnb
      simp only [Bool.not_eq_eq_eq_not, Bool.not_true, decide_eq_false_iff_not,
        not_not]
      exact hall nb hnb
    simp [growResOf, hacc]
  · intro hh
    have hmem : p.headI ∈ accepted p p.headI nbs := by
      simp only [accepted, List.mem_filter]
      refine ⟨hh, ?_⟩
      simp
    have hne : p ≠ [] := getLast?_ne_nil hl
    have hlasteq : (p ++ [p.headI]).getLast? = (p ++ [p.headI]).head? := by
      rw [List.getLast?_concat]
      cases p with
      | nil => exact absurd rfl hne
      | cons x xs => simp [List.headI]
    cases hacc : accepted p p.headI nbs with
    | nil => rw [hacc] at hmem; simp at hmem
    | cons a rest =>
      rw [hacc] at hmem
      refine ⟨by simp [growResOf, hacc], ?_, hlasteq⟩
      rcases List.mem_cons.mp hmem with rfl | hmem
      · simp [growResOf, hacc]
      · simp only [growResOf, hacc]
        exact List.mem_cons_of_mem _ (List.mem_map.mpr ⟨p.headI, hmem, rfl⟩)

/-- C4 witness: on the graph `a ↦ [b, a]` the live path `[a]` accepts both
neighbors — `b` extends it in place and the cycle-closing `a` forks
`[a, a]`, whose last node equals its first. -/
theorem c4_witness :
    ([pstr "a"] : List Str).Nodup ∧
    ([pstr "a"] : List Str).getLast? = some (pstr "a") ∧
    lookupG [(pstr "a", [pstr "b", pstr "a"]), (pstr "b", [])] (pstr "a")
      = some [pstr "b", pstr "a"] ∧
    (stepPath [(pstr "a", [pstr "b", pstr "a"]), (pstr "b", [])] [pstr "a"]
        = .ok (growResOf [pstr "a"] [pstr "b", pstr "a"]) ∧
      (∀ q, q ∈ (growResOf [pstr "a"] [pstr "b", pstr "a"]).path ::
          (growResOf [pstr "a"] [pstr "b", pstr "a"]).forks →
        q = [pstr "a"] ∨ ∃ nb, nb ∈ [pstr "b", pstr "a"] ∧
          (nb ∉ [pstr "a"] ∨ nb = ([pstr "a"] : List Str).headI) ∧
          q = [pstr "a"] ++ [nb]) ∧
      ((∀ nb ∈ [pstr "b", pstr "a"], nb ∈ [pstr "a"] ∧
          nb ≠ ([pstr "a"] : List Str).headI) →
        growResOf [pstr "a"] [pstr "b", pstr "a"] = ⟨[pstr "a"], [], false⟩) ∧
      (([pstr "a"] : List Str).headI ∈ [pstr "b", pstr "a"] →
        (growResOf [pstr "a"] [pstr "b", pstr "a"]).changed = true ∧
        ([pstr "a"] ++ [([pstr "a"] : List Str).headI]) ∈
          (growResOf [pstr "a"] [pstr "b", pstr "a"]).path ::
            (growResOf [pstr "a"] [pstr "b", pstr "a"]).forks ∧
        ([pstr "a"] ++ [([pstr "a"] : List Str).headI]).getLast?
          = ([pstr "a"] ++ [([pstr "a"] : List Str).headI]).head?)) :=
  ⟨by decide, by decide, by decide,
    c4_cycle_closure [(pstr "a", [pstr "b", pstr "a"]), (pstr "b", [])]
      [pstr "a"] (pstr "a") [pstr "b", pstr "a"] (by decide) (by decide) (by decide)⟩

/-! ## Working-set invariants of the prime-path engine -/

theorem stepPath_dead {g : Graph} {p : List Str} (hnd : ¬ p.Nodup) :
    stepPath g p = .ok ⟨p, [], false⟩ := by
  unfold stepPath; rw [if_pos hnd]

theorem stepPath_last_none {g : Graph} {p : List Str} (hnd : p.Nodup)
    (hl : p.getLast? = none) : stepPath g p = .error .indexError := by
  unfold stepPath; rw [if_neg (not_not_intro hnd), hl]

theorem stepPath_lookup_none {g : Graph} {p : List Str} {l : Str} (hnd : p.Nodup)
    (hl : p.getLast? = some l) (hlk : lookupG g l = none) :
    stepPath g p = .error .keyError := by
  unfold stepPath; rw [if_neg (not_not_intro hnd), hl]; simp only [hlk]

theorem stepPath_ok_cases {g : Graph} {p : List Str} {r : GrowRes}
    (h : stepPath g p = .ok r) :
    (¬ p.Nodup ∧ r = ⟨p, [], false⟩) ∨
    (p.Nodup ∧ ∃ l nbs, p.getLast? = some l ∧ lookupG g l = some nbs ∧
      r = growResOf p nbs) := by
  by_cases hnd : p.Nodup
  · right
    refine ⟨hnd, ?_⟩
    cases hl : p.getLast? with
    | none => rw [stepPath_last_none hnd hl] at h; cases h
    | some l =>
      cases hlk : lookupG g l with
      | none => rw [stepPath_lookup_none hnd hl hlk] at h; cases h
      | some nbs =>
        rw [stepPath_eq_growResOf hnd hl hlk] at h
        exact ⟨l, nbs, by simp [hl], by simp [hlk], (Except.ok.inj h).symm⟩
  · left
    rw [stepPath_dead hnd] at h
    exact ⟨hnd, (Except.ok.inj h).symm⟩

theorem growResOf_mem {p : List Str} {nbs : List Str} {q : List Str}
    (h : q ∈ (growResOf p nbs).path :: (growResOf p nbs).forks) :
    q = p ∨ ∃ nb, nb ∈ nbs ∧ (nb ∉ p ∨ nb = p.headI) ∧ q = p ++ [nb] := by
  cases hacc : accepted p p.headI nbs with
  | nil =>
    simp only [growResOf, hacc] at h
    rcases List.mem_cons.mp h with rfl | h
    · exact Or.inl rfl
    · simp at h
  | cons a rest =>
    simp only [growResOf, hacc] at h
    rcases List.mem_cons.mp h with rfl | h
    · obtain ⟨h1, h2⟩ := mem_accepted (hacc ▸ List.mem_cons_self a rest)
      exact Or.inr ⟨a, h1, h2, rfl⟩
    · obtain ⟨nb, hnb, rfl⟩ := List.mem_map.mp h
      obtain ⟨h1, h2⟩ := mem_accepted (hacc ▸ List.mem_cons_of_mem a hnb)
      exact Or.inr ⟨nb, h1, h2, rfl⟩

theorem lookupG_mem {g : Graph} {k : Str} {v : List Str}
    (h : lookupG g k = some v) : (k, v) ∈ g := by
  induction g with
  | nil => cases h
  | cons e rest ih =>
    unfold lookupG at h
    split at h
    case isTrue he =>
      have hv : v = e.2 := (Option.some.inj h).symm
      have : e = (k, v) := by rw [hv, ← he]
      exact this ▸ List.mem_cons_self e rest
    case isFalse he => exact List.mem_cons_of_mem _ (ih h)

/-- Provenance of every path present after one round: it was already there,
or it extends a live path of the round by one accepted neighbor taken from
some adjacency list of the graph. -/
theorem growRound_mem {g : Graph} {ps : List (List Str)}
    {r : List (List Str) × List (List Str) × Bool} (h : growRound g ps = .ok r) :
    ∀ q, q ∈ r.1 ++ r.2.1 → q ∈ ps ∨
      ∃ p nb, p ∈ ps ∧ p.Nodup ∧ p ≠ [] ∧ (nb ∉ p ∨ nb = p.headI) ∧
        (∃ e ∈ g, nb ∈ e.2) ∧ q = p ++ [nb] := by
  induction ps generalizing r with
  | nil =>
    have : r = ([], [], false) := (Except.ok.inj h).symm
    subst this
    intro q hq
    simp at hq
  | cons p ps ih =>
    cases hr : stepPath g p with
    | error e => simp only [growRound, hr, exbind_error] at h; cases h
    | ok pr =>
      cases hrest : growRound g ps with
      | error e => simp only [growRound, hr, hrest, exbind_ok, exbind_error] at h; cases h
      | ok rest =>
        simp only [growRound, hr, hrest, exbind_ok] at h
        have hre : r = (pr.path :: rest.1, pr.forks ++ rest.2.1,
            pr.changed || rest.2.2) := (Except.ok.inj h).symm
        subst hre
        intro q hq
        have hq' : q = pr.path ∨ q ∈ pr.forks ∨ q ∈ rest.1 ++ rest.2.1 := by
          rcases List.mem_append.mp hq with hq | hq
          · rcases List.mem_cons.mp hq with rfl | hq
            · exact Or.inl rfl
            · exact Or.inr (Or.inr (List.mem_append.mpr (Or.inl hq)))
          · rcases List.mem_append.mp hq with hq | hq
            · exact Or.inr (Or.inl hq)
            · exact Or.inr (Or.inr (List.mem_append.mpr (Or.inr hq)))
        have hmain : q ∈ pr.path :: pr.forks → q ∈ (p :: ps) ∨
            ∃ p' nb, p' ∈ p :: ps ∧ p'.Nodup ∧ p' ≠ [] ∧
              (nb ∉ p' ∨ nb = p'.headI) ∧ (∃ e ∈ g, nb ∈ e.2) ∧ q = p' ++ [nb] := by
          intro hmem
          rcases stepPath_ok_cases hr with ⟨-, rfl⟩ | ⟨hnd, l, nbs, hl, hlk, rfl⟩
          · rcases List.mem_cons.mp hmem with rfl | hmem
            · exact Or.inl (List.mem_cons_self _ _)
            · simp at hmem
          · rcases growResOf_mem hmem with rfl | ⟨nb, h1, h2, rfl⟩
            · exact Or.inl (List.mem_cons_self _ _)
            · refine Or.inr ⟨p, nb, List.mem_cons_self _ _, hnd,
                getLast?_ne_nil hl, h2, ?_, rfl⟩
              exact ⟨(l, nbs), lookupG_mem hlk, h1⟩
        rcases hq' with rfl | hq' | hq'
        · exact hmain (List.mem_cons_self _ _)
        · exact hmain (List.mem_cons_of_mem _ hq')
        · rcases ih hrest q hq' with hq'' | ⟨p', nb, hp', rest'⟩
          · exact Or.inl (List.mem_cons_of_mem _ hq'')
          · exact Or.inr ⟨p', nb, List.mem_cons_of_mem _ hp', rest'⟩

theorem pathOK_extend {p : List Str} {nb : Str} (hne : p ≠ []) (hnd : p.Nodup)
    (hacc : nb ∉ p ∨ nb = p.headI) : PathOK (p ++ [nb]) := by
  refine ⟨by simp, ?_⟩
  rcases hacc with h | rfl
  · left
    simp [List.nodup_append, hnd, h]
  · right
    constructor
    · rw [List.dropLast_concat]; exact hnd
    · rw [List.getLast?_concat]
      cases p with
      | nil => exact absurd rfl hne
      | cons x xs => simp [List.headI]

/-- The invariant the engine maintains on its working set: every path is a
prime-path candidate (`PathOK`) made only of strings occurring in the
graph. -/
def GoodPaths (g : Graph) (ps : List (List Str)) : Prop :=
  ∀ p ∈ ps, PathOK p ∧ ∀ x ∈ p, OccursIn g x

theorem goodPaths_seed (g : Graph) : GoodPaths g (g.map fun e => [e.1]) := by
  intro p hp
  obtain ⟨e, he, rfl⟩ := List.mem_map.mp hp
  exact ⟨⟨by simp, Or.inl (by simp)⟩, fun x hx => by
    rw [List.mem_singleton.mp hx]; exact ⟨e, he, Or.inl rfl⟩⟩

theorem growRoundAll_good {g : Graph} {ps out : List (List Str)} {ch : Bool}
    (h : growRoundAll g ps = .ok (out, ch)) (hg : GoodPaths g ps) :
    GoodPaths g out := by
  cases hr : growRound g ps with
  | error e => simp only [growRoundAll, hr, exbind_error] at h; cases h
  | ok r =>
    simp only [growRoundAll, hr, exbind_ok] at h
    have hout : out = r.1 ++ r.2.1 := by
      have := Except.ok.inj h
      exact (congrArg Prod.fst this).symm
    subst hout
    intro q hq
    rcases growRound_mem hr q hq with hq | ⟨p, nb, hp, hnd, hpne, hacc, ⟨e, he, hnb⟩, rfl⟩
    · exact hg q hq
    · obtain ⟨-, hocc⟩ := hg p hp
      refine ⟨pathOK_extend hpne hnd hacc, ?_⟩
      intro x hx
      rcases List.mem_append.mp hx with hx | hx
      · exact hocc x hx
      · rw [List.mem_singleton.mp hx]
        exact ⟨e, he, Or.inr hnb⟩

theorem stepPrime_good {g : Graph} {cap : Int} {s s' : PState}
    (h : stepPrime g cap s = .ok s') (hs : GoodPaths g s.paths) :
    GoodPaths g s'.paths := by
  simp only [stepPrime] at h
  split at h
  · cases h; exact hs
  · split at h
    · cases h
    · cases hr : growRoundAll g
          (if s.iteration = 0 then g.map (fun e => [e.1]) else s.paths) with
      | error e => rw [hr, exbind_error] at h; cases h
      | ok r =>
        rw [hr, exbind_ok] at h
        cases h
        have hpre : GoodPaths g
            (if s.iteration = 0 then g.map (fun e => [e.1]) else s.paths) := by
          split
          · exact goodPaths_seed g
          · exact hs
        exact growRoundAll_good (by rw [hr]) hpre

theorem runPrime_good {g : Graph} {cap : Int} :
    ∀ {fuel : Nat} {s0 s : PState}, runPrime g cap fuel s0 = .ok (some s) →
      GoodPaths g s0.paths → GoodPaths g s.paths := by
  intro fuel
  induction fuel with
  | zero => intro s0 s h; simp [runPrime] at h
  | succ n ih =>
    intro s0 s h h0
    simp only [runPrime] at h
    cases hst : stepPrime g cap s0 with
    | error e => rw [hst, exbind_error] at h; cases h
    | ok s1 =>
      rw [hst, exbind_ok] at h
      by_cases hp : s1.progress = .computed
      · rw [if_pos hp] at h
        have : s1 = s := Option.some.inj (Except.ok.inj h)
        exact this ▸ stepPrime_good hst h0
      · rw [if_neg hp] at h
        exact ih h (stepPrime_good hst h0)

theorem stepsPrime_good {g : Graph} {cap : Int} :
    ∀ {k : Nat} {s : PState}, stepsPrime g cap k = .ok s → GoodPaths g s.paths := by
  intro k
  induction k with
  | zero =>
    intro s h
    have : initPState = s := Except.ok.inj h
    subst this
    intro p hp
    simp [initPState] at hp
  | succ n ih =>
    intro s h
    simp only [stepsPrime] at h
    cases hs0 : stepsPrime g cap n with
    | error e => rw [hs0, exbind_error] at h; cases h
    | ok s0 =>
      rw [hs0, exbind_ok] at h
      exact stepPrime_good h (ih hs0)

/-! ## Error classification (claim C7) -/

theorem stepPath_error_mem {g : Graph} {p : List Str} {e : PyErr}
    (h : stepPath g p = .error e) : e = .indexError ∨ e = .keyError := by
  unfold stepPath at h
  split at h
  · cases h
  · split at h
    · cases h; exact Or.inl rfl
    · split at h
      · cases h; exact Or.inr rfl
      · cases h

theorem growRound_error {g : Graph} {ps : List (List Str)} {e : PyErr}
    (h : growRound g ps = .error e) : e = .indexError ∨ e = .keyError := by
  induction ps generalizing e with
  | nil => cases h
  | cons p ps ih =>
    cases hr : stepPath g p with
    | error e' =>
      simp only [growRound, hr, exbind_error] at h
      cases h
      exact stepPath_error_mem hr
    | ok r =>
      cases hrest : growRound g ps with
      | error e' =>
        simp only [growRound, hr, hrest, exbind_ok, exbind_error] at h
        cases h
        exact ih hrest
      | ok rest => simp only [growRound, hr, hrest, exbind_ok] at h; cases h

theorem growRoundAll_error {g : Graph} {ps : List (List Str)} {e : PyErr}
    (h : growRoundAll g ps = .error e) : e = .indexError ∨ e = .keyError := by
  cases hr : growRound g ps with
  | error e' =>
    simp only [growRoundAll, hr, exbind_error] at h
    cases h
    exact growRound_error hr
  | ok r => simp only [growRoundAll, hr, exbind_ok] at h; cases h

theorem mapM_lookup_error {g : Graph} {n : Str} {nbs : List Str} {e : PyErr}
    (h : nbs.mapM (fun m => match lookupG g m with
      | none => Except.error PyErr.keyError
      | some ks => Except.ok (ks.map (fun k => [n, m, k]))) = .error e) :
    e = .keyError := by
  induction nbs with
  | nil => cases h
  | cons m rest ih =>
    rw [List.mapM_cons] at h
    cases hl : lookupG g m with
    | none =>
      rw [hl] at h
      simp only [exbind_error] at h
      cases h
      rfl
    | some ks =>
      rw [hl] at h
      simp only [exbind_ok] at h
      cases hrest : rest.mapM (fun m => match lookupG g m with
        | none => Except.error PyErr.keyError
        | some ks => Except.ok (ks.map (fun k => [n, m, k]))) with
      | error e' =>
        rw [hrest, exbind_error] at h
        cases h
        exact ih hrest
      | ok tss => rw [hrest, exbind_ok] at h; cases h

theorem edgeTriples_error {g : Graph} {n : Str} {e : PyErr}
    (h : edgeTriples g n = .error e) : e = .keyError := by
  unfold edgeTriples at h
  split at h
  · cases h; rfl
  case h_2 nbs heq =>
    cases hm : nbs.mapM (fun m => match lookupG g m with
      | none => Except.error PyErr.keyError
      | some ks => Except.ok (ks.map (fun k => [n, m, k]))) with
    | error e' =>
      rw [hm, exbind_error] at h
      cases h
      exact mapM_lookup_error hm
    | ok tss => rw [hm, exbind_ok] at h; cases h

/-- C7: both step functions raise `IterationLimitExceeded` exactly when the
incremented round counter equals the cap and the state is not yet terminal;
with the sentinel cap `-1` the error is never raised. -/
theorem c7_iteration_limit (g : Graph) (cap : Int) (s : PState) (se : EState) :
    (stepPrime g cap s = .error .iterLimit ↔
      ¬ terminalProg s.progress ∧ ((s.iteration : Int) + 1 = cap)) ∧
    (stepEdge g cap se = .error .iterLimit ↔
      ¬ terminalProg se.progress ∧ ((se.iteration : Int) + 1 = cap)) ∧
    (cap = -1 → stepPrime g cap s ≠ .error .iterLimit ∧
      stepEdge g cap se ≠ .error .iterLimit) := by
  have hp : stepPrime g cap s = .error .iterLimit ↔
      ¬ terminalProg s.progress ∧ ((s.iteration : Int) + 1 = cap) := by
    simp only [stepPrime]
    split
    case isTrue ht =>
      constructor
      · intro h; cases h
      · rintro ⟨hnt, -⟩; exact absurd ht hnt
    case isFalse ht =>
      split
      case isTrue hc =>
        refine iff_of_true rfl ⟨ht, ?_⟩
        push_cast at hc
        omega
      case isFalse hc =>
        constructor
        · intro h
          cases hr : growRoundAll g
              (if s.iteration = 0 then g.map (fun e => [e.1]) else s.paths) with
          | error e =>
            rw [hr, exbind_error] at h
            cases h
            rcases growRoundAll_error hr with h' | h' <;> cases h'
          | ok r => rw [hr, exbind_ok] at h; cases h
        · rintro ⟨-, hc2⟩
          refine absurd ?_ hc
          push_cast
          omega
  have he : stepEdge g cap se = .error .iterLimit ↔
      ¬ terminalProg se.progress ∧ ((se.iteration : Int) + 1 = cap) := by
    simp only [stepEdge]
    split
    case isTrue ht =>
      constructor
      · intro h; cases h
      · rintro ⟨hnt, -⟩; exact absurd ht hnt
    case isFalse ht =>
      split
      case isTrue hc =>
        refine iff_of_true rfl ⟨ht, ?_⟩
        push_cast at hc
        omega
      case isFalse hc =>
        constructor
        · intro h
          split at h
          · cases h
          · rename_i n rest heq
            cases hts : edgeTriples g n with
            | error e =>
              rw [hts, exbind_error] at h
              cases h
              cases edgeTriples_error hts
            | ok ts => rw [hts, exbind_ok] at h; cases h
        · rintro ⟨-, hc2⟩
          refine absurd ?_ hc
          push_cast
          omega
  refine ⟨hp, he, fun hcap => ⟨?_, ?_⟩⟩
  · intro h
    obtain ⟨-, h2⟩ := hp.mp h
    rw [hcap] at h2
    omega
  · intro h
    obtain ⟨-, h2⟩ := he.mp h
    rw [hcap] at h2
    omega

/-- C7 witness: a non-terminal prime-path state whose next round counter
equals the cap raises the limit error, and so does the edge-pair engine. -/
theorem c7_witness :
    stepPrime [(pstr "a", [])] 5 ⟨[[pstr "a"]], 4, .working⟩
        = .error .iterLimit ∧
      stepEdge [(pstr "a", [])] 5 ⟨[], 4, .working, [pstr "a"]⟩
        = .error .iterLimit :=
  ⟨(c7_iteration_limit [(pstr "a", [])] 5 ⟨[[pstr "a"]], 4, .working⟩
      ⟨[], 4, .working, [pstr "a"]⟩).1.mpr ⟨by decide, by decide⟩,
    (c7_iteration_limit [(pstr "a", [])] 5 ⟨[[pstr "a"]], 4, .working⟩
      ⟨[], 4, .working, [pstr "a"]⟩).2.1.mpr ⟨by decide, by decide⟩⟩

/-! ## Sub-path elimination: structure of `_cleanup_prime_paths` -/

theorem markRemoved_mem {l : List Str} {s : Str} (h : s ∈ markRemoved l) :
    s = [] ∨ s ∈ l := by
  induction l with
  | nil => simp [markRemoved] at h
  | cons a rest ih =>
    simp only [markRemoved, List.mem_cons] at h
    rcases h with h | h
    · by_cases hc : rest.any (fun t => isSub a t) = true
      · rw [if_pos hc] at h; exact Or.inl h
      · rw [if_neg hc] at h; exact Or.inr (h ▸ List.mem_cons_self a rest)
    · rcases ih h with h | h
      · exact Or.inl h
      · exact Or.inr (List.mem_cons_of_mem a h)

instance : IsTrans Str (fun a b => a.length ≤ b.length) :=
  ⟨fun _ _ _ hab hbc => Nat.le_trans hab hbc⟩

instance : IsTotal Str (fun a b => a.length ≤ b.length) :=
  ⟨fun a b => Nat.le_total a.length b.length⟩

theorem strs_sorted (l : List Str) :
    (sortByLen l).Pairwise (fun a b => a.length ≤ b.length) :=
  List.sorted_insertionSort _ l

theorem mem_sortByLen {l : List Str} {a : Str} : a ∈ sortByLen l ↔ a ∈ l :=
  List.mem_insertionSort _

theorem sortByKey_perm (l : List (List Str)) : List.Perm (sortByKey l) l :=
  List.perm_insertionSort _ l

theorem mem_sortByKey {l : List (List Str)} {a : List Str} :
    a ∈ sortByKey l ↔ a ∈ l :=
  List.mem_insertionSort _

theorem markRemoved_pairwise {l : List Str}
    (hs : l.Pairwise (fun a b => a.length ≤ b.length)) :
    ((markRemoved l).filter (fun s => !s.isEmpty)).Pairwise
      (fun a b => ¬ SubPath a b ∧ ¬ SubPath b a) := by
  induction l with
  | nil => simp [markRemoved]
  | cons s rest ih =>
    obtain ⟨hlen, hrest⟩ := List.pairwise_cons.mp hs
    simp only [markRemoved, List.filter_cons]
    by_cases hc : rest.any (fun t => isSub s t) = true
    · rw [if_pos hc]
      simpa using ih hrest
    · rw [if_neg hc]
      cases hse : s.isEmpty with
      | true =>
        have : s = [] := by
          cases s
          · rfl
          · simp at hse
        simp only [hse, Bool.not_true, Bool.false_eq_true, if_false]
        exact ih hrest
      | false =>
        simp only [hse, Bool.not_false, if_true]
        refine List.pairwise_cons.mpr ⟨?_, ih hrest⟩
        intro x hx
        have hx2 := List.mem_filter.mp hx
        have hxne : x ≠ [] := by simpa using hx2.2
        rcases markRemoved_mem hx2.1 with rfl | hxmem
        · exact absurd rfl hxne
        · have hnot : isSub s x = false := by
            by_contra hxx
            exact hc (List.any_eq_true.mpr ⟨x, hxmem, by simpa using hxx⟩)
          constructor
          · intro hsp
            rw [(isSub_iff s x).mpr hsp] at hnot
            cases hnot
          · intro hsp
            have h1 : x.length ≤ s.length := hsp.length_le
            have h2 : s.length ≤ x.length := hlen x hxmem
            have hxe : x = s := hsp.eq_of_length (le_antisymm h1 h2)
            subst hxe
            rw [(isSub_iff x x).mpr (SubPath.refl x)] at hnot
            cases hnot

theorem filter_marked_origin {ps : List (List Str)} {a : Str}
    (hne : ∀ q ∈ ps, q ≠ []) (hsf : ∀ q ∈ ps, ∀ x ∈ q, ' ' ∉ x)
    (ha : a ∈ ((markRemoved (sortByLen (ps.map (joinWith ' ')))).filter
      (fun s => !s.isEmpty))) :
    ∃ qa ∈ ps, a = joinWith ' ' qa ∧ pySplitOn ' ' a = qa := by
  have h2 := List.mem_filter.mp ha
  have hane : a ≠ [] := by simpa using h2.2
  rcases markRemoved_mem h2.1 with rfl | hmem
  · exact absurd rfl hane
  · rw [mem_sortByLen] at hmem
    obtain ⟨qa, hqa, rfl⟩ := List.mem_map.mp hmem
    exact ⟨qa, hqa, rfl, pySplitOn_joinWith (hne qa hqa) (hsf qa hqa)⟩

theorem cleanup1_pairwise {ps : List (List Str)} (hne : ∀ q ∈ ps, q ≠ [])
    (hsf : ∀ q ∈ ps, ∀ x ∈ q, ' ' ∉ x) :
    (cleanup1 ps).Pairwise (fun a b => ¬ SubPath a b ∧ ¬ SubPath b a) := by
  unfold cleanup1
  rw [(sortByKey_perm _).pairwise_iff (fun {a b} h => ⟨h.2, h.1⟩),
    List.pairwise_map]
  have hpw := markRemoved_pairwise (strs_sorted (ps.map (joinWith ' ')))
  refine hpw.imp_of_mem ?_
  intro a b ha hb hR
  obtain ⟨qa, hqa, rfl, hsa⟩ := filter_marked_origin hne hsf ha
  obtain ⟨qb, hqb, rfl, hsb⟩ := filter_marked_origin hne hsf hb
  rw [hsa, hsb]
  exact ⟨fun hsp => hR.1 (joinWith_subPath hsp),
    fun hsp => hR.2 (joinWith_subPath hsp)⟩

theorem markRemoved_kill {l : List Str}
    (hs : l.Pairwise (fun a b => a.length ≤ b.length)) {s t : Str}
    (hsl : s ∈ l) (htl : t ∈ l) (hsub : SubPath s t)
    (hlt : s.length < t.length) :
    s ∉ (markRemoved l).filter (fun x => !x.isEmpty) := by
  induction l with
  | nil => simp at hsl
  | cons a rest ih =>
    obtain ⟨hlen, hrest⟩ := List.pairwise_cons.mp hs
    intro hmem
    have hm2 := List.mem_filter.mp hmem
    have hsne : s ≠ [] := by simpa using hm2.2
    have htrest : t ∈ rest := by
      rcases List.mem_cons.mp htl with rfl | h
      · rcases List.mem_cons.mp hsl with rfl | h2
        · omega
        · have := hlen s h2
          omega
      · exact h
    have hmm : s = (if rest.any (fun x => isSub a x) then [] else a)
        ∨ s ∈ markRemoved rest := by
      simpa [markRemoved] using hm2.1
    rcases hmm with hhead | htail
    · by_cases hc : rest.any (fun x => isSub a x) = true
      · rw [if_pos hc] at hhead
        exact hsne hhead
      · rw [if_neg hc] at hhead
        have hiss : isSub s t = true := (isSub_iff s t).mpr hsub
        rw [hhead] at hiss
        exact hc (List.any_eq_true.mpr ⟨t, htrest, by simpa using hiss⟩)
    · rcases markRemoved_mem htail with rfl | hsr
      · exact hsne rfl
      · exact ih hrest hsr htrest (List.mem_filter.mpr ⟨htail, hm2.2⟩)

/-! ## Inversion of the driver loops -/

theorem computePrime_inv {g : Graph} {cap : Int} {fuel : Nat}
    {out : List (List Str)} (h : computePrime g cap fuel = .ok (some out)) :
    ∃ s, runPrime g cap fuel initPState = .ok (some s) ∧ out = cleanup1 s.paths := by
  unfold computePrime at h
  cases hr : runPrime g cap fuel initPState with
  | error e => rw [hr, exbind_error] at h; cases h
  | ok o =>
    rw [hr, exbind_ok] at h
    cases o with
    | none => exact absurd (Except.ok.inj h) (by simp)
    | some s => exact ⟨s, rfl, (Option.some.inj (Except.ok.inj h)).symm⟩

theorem cleanup1_mem {ps : List (List Str)} {p : List Str}
    (hne : ∀ q ∈ ps, q ≠ []) (hsf : ∀ q ∈ ps, ∀ x ∈ q, ' ' ∉ x)
    (hmem : p ∈ cleanup1 ps) : p ∈ ps := by
  unfold cleanup1 at hmem
  rw [mem_sortByKey] at hmem
  obtain ⟨s, hsmem, rfl⟩ := List.mem_map.mp hmem
  obtain ⟨qa, hqa, -, hsa⟩ := filter_marked_origin hne hsf hsmem
  rw [hsa]
  exact hqa

theorem goodPaths_spaceFree {g : Graph} {ps : List (List Str)}
    (hsf : GraphSpaceFree g) (hgood : GoodPaths g ps) :
    ∀ q ∈ ps, ∀ x ∈ q, ' ' ∉ x := by
  intro q hq x hx
  obtain ⟨e, he, hoc⟩ := (hgood q hq).2 x hx
  rcases hoc with rfl | hoc
  · exact (hsf e he).1
  · exact (hsf e he).2 x hoc

theorem goodPaths_init (g : Graph) : GoodPaths g initPState.paths := by
  intro p hp
  simp [initPState] at hp

/-! ## Claims C5, C1 and C2 -/

/-- C5 counterexample: on a graph whose node identifier `a x a` contains
spaces, `compute_prime_paths` returns the path `[x, a, x, a]`, which repeats
the node `x` away from the first/last position — the claim as stated (with
no space-free restriction on identifiers) fails on the returned set. -/
theorem c5_counterexample :
    computePrime [(pstr "x", [pstr "a x a"]), (pstr "a x a", [])] 100 10
        = .ok (some [[pstr "x", pstr "a", pstr "x", pstr "a"]]) ∧
      ¬ PathOK [pstr "x", pstr "a", pstr "x", pstr "a"] :=
  ⟨rfl, by decide⟩

/-- C5 (amended): after any number of rounds every path of the working set
is a prime-path candidate (no repeated node except a first/last match), a
path with a duplicate is never again extended, and — for graphs whose
identifiers contain no space — the same holds for every path returned by
`compute_prime_paths`. -/
theorem c5_amended :
    (∀ (g : Graph) (cap : Int) (k : Nat) (s : PState),
      stepsPrime g cap k = .ok s →
      ∀ p ∈ s.paths, PathOK p ∧ (¬ p.Nodup → stepPath g p = .ok ⟨p, [], false⟩)) ∧
    (∀ (g : Graph) (cap : Int) (fuel : Nat) (out : List (List Str)),
      GraphSpaceFree g → computePrime g cap fuel = .ok (some out) →
      ∀ p ∈ out, PathOK p) := by
  constructor
  · intro g cap k s h p hp
    exact ⟨(stepsPrime_good h p hp).1, fun hnd => stepPath_dead hnd⟩
  · intro g cap fuel out hsf h p hp
    obtain ⟨s, hrun, rfl⟩ := computePrime_inv h
    have hgood : GoodPaths g s.paths := runPrime_good hrun (goodPaths_init g)
    exact (hgood p (cleanup1_mem (fun q hq => (hgood q hq).1.1)
      (goodPaths_spaceFree hsf hgood) hp)).1

/-- C5 witness: on the space-free graph `a ↦ [b]` the returned prime paths
all satisfy the candidate invariant. -/
theorem c5_witness :
    GraphSpaceFree [(pstr "a", [pstr "b"]), (pstr "b", [])] ∧
    computePrime [(pstr "a", [pstr "b"]), (pstr "b", [])] 100 5
        = .ok (some [[pstr "a", pstr "b"]]) ∧
    (∀ p ∈ ([[pstr "a", pstr "b"]] : List (List Str)), PathOK p) :=
  ⟨by decide, rfl,
    c5_amended.2 [(pstr "a", [pstr "b"]), (pstr "b", [])] 100 5
      [[pstr "a", pstr "b"]] (by decide) rfl⟩

/-- The graph `{a ↦ [ab], ab ↦ [], b ↦ []}`: space-free identifiers whose
joined strings collide across the separator. -/
def gAB : Graph := [(pstr "a", [pstr "ab"]), (pstr "ab", []), (pstr "b", [])]

/-- The converged working set the engine reaches on `gAB`. -/
def sAB : List (List Str) := [[pstr "a", pstr "ab"], [pstr "ab"], [pstr "b"]]

/-- C1 counterexample: on `gAB` the converged set is `sAB`; the finalization
pass removes the path `[b]` — the string `"b"` is a substring of `"a ab"` —
although `[b]` is not a contiguous sub-sequence of any other path of the
set, so the substring check does not decide sequence containment. -/
theorem c1_counterexample :
    stepsPrime gAB 100 2 = .ok ⟨sAB, 2, .computed⟩ ∧
    cleanup1 sAB = [[pstr "a", pstr "ab"]] ∧
    [pstr "b"] ∈ sAB ∧
    (∀ q ∈ sAB, q = [pstr "b"] ∨ ¬ SubPath [pstr "b"] q) :=
  ⟨rfl, rfl, by decide, by decide⟩

/-- C1 (amended): for space-free identifiers the finalization pass removes
every path that is a strict contiguous sub-sequence of another path of the
set, and it leaves no duplicate (of two equal paths at most one survives);
the substring check may however remove additional paths that are not
contiguous sub-sequences, when identifiers collide across the separator. -/
theorem c1_amended (ps : List (List Str)) (hne : ∀ q ∈ ps, q ≠ [])
    (hsf : ∀ q ∈ ps, ∀ x ∈ q, ' ' ∉ x) :
    (∀ p q, p ∈ ps → q ∈ ps → SubPath p q → p ≠ q → p ∉ cleanup1 ps) ∧
    (cleanup1 ps).Nodup := by
  constructor
  · intro p q hp hq hsub hpq hmem
    unfold cleanup1 at hmem
    rw [mem_sortByKey] at hmem
    obtain ⟨a, ha, hsplit⟩ := List.mem_map.mp hmem
    obtain ⟨qa, hqa, rfl, hsa⟩ := filter_marked_origin hne hsf ha
    have hpqa : p = qa := by rw [← hsplit, hsa]
    subst hpqa
    refine markRemoved_kill (strs_sorted (ps.map (joinWith ' ')))
      (s := joinWith ' ' p) (t := joinWith ' ' q) ?_ ?_ ?_ ?_ ha
    · rw [mem_sortByLen]
      exact List.mem_map.mpr ⟨p, hp, rfl⟩
    · rw [mem_sortByLen]
      exact List.mem_map.mpr ⟨q, hq, rfl⟩
    · exact joinWith_subPath hsub
    · exact joinWith_length_lt (hne p hp) hsub hpq
  · exact (cleanup1_pairwise hne hsf).imp
      (fun h => fun heq => h.1 (heq ▸ SubPath.refl _))

/-- C1 witness: the amended statement applied to the concrete converged set
`sAB`. -/
theorem c1_witness :
    (∀ q ∈ sAB, q ≠ []) ∧ (∀ q ∈ sAB, ∀ x ∈ q, ' ' ∉ x) ∧
    ((∀ p q, p ∈ sAB → q ∈ sAB → SubPath p q → p ≠ q → p ∉ cleanup1 sAB) ∧
      (cleanup1 sAB).Nodup) :=
  ⟨by decide, by decide, c1_amended sAB (by decide) (by decide)⟩

/-- C2: on a graph with space-free identifiers, whenever
`compute_prime_paths` completes, no returned path is a contiguous
sub-sequence (strict or equal) of another returned path. -/
theorem c2_no_sub_path_pairs (g : Graph) (cap : Int) (fuel : Nat)
    (out : List (List Str)) (hsf : GraphSpaceFree g)
    (h : computePrime g cap fuel = .ok (some out)) :
    out.Pairwise (fun p q => ¬ SubPath p q ∧ ¬ SubPath q p) := by
  obtain ⟨s, hrun, rfl⟩ := computePrime_inv h
  have hgood : GoodPaths g s.paths := runPrime_good hrun (goodPaths_init g)
  exact cleanup1_pairwise (fun q hq => (hgood q hq).1.1)
    (goodPaths_spaceFree hsf hgood)

/-- C2 witness: the branch graph of the spec's Scenario B. -/
theorem c2_witness :
    GraphSpaceFree [(pstr "a", [pstr "b", pstr "c"]), (pstr "b", []), (pstr "c", [])] ∧
    computePrime [(pstr "a", [pstr "b", pstr "c"]), (pstr "b", []), (pstr "c", [])]
        100 5 = .ok (some [[pstr "a", pstr "b"], [pstr "a", pstr "c"]]) ∧
    ([[pstr "a", pstr "b"], [pstr "a", pstr "c"]] : List (List Str)).Pairwise
      (fun p q => ¬ SubPath p q ∧ ¬ SubPath q p) :=
  ⟨by decide, rfl,
    c2_no_sub_path_pairs [(pstr "a", [pstr "b", pstr "c"]), (pstr "b", []), (pstr "c", [])]
      100 5 [[pstr "a", pstr "b"], [pstr "a", pstr "c"]] (by decide) rfl⟩

/-! ## Edge-pair engine: run-level characterization (claim C6) -/

/-- The triples contributed by one node, in terms of graph lookups. -/
def tripleOf (g : Graph) (n : Str) : List (List Str) :=
  ((lookupG g n).getD []).flatMap fun m =>
    ((lookupG g m).getD []).map fun k => [n, m, k]

theorem flatMap_congr_mem {α β : Type} {l : List α} {f h : α → List β}
    (hfh : ∀ a ∈ l, f a = h a) : l.flatMap f = l.flatMap h := by
  induction l with
  | nil => rfl
  | cons a rest ih =>
    simp only [List.flatMap_cons]
    rw [hfh a (List.mem_cons_self a rest), ih (fun x hx => hfh x (List.mem_cons_of_mem a hx))]

theorem lookupG_of_mem_nodup {g : Graph} (hk : (g.map (·.1)).Nodup)
    {e : Str × List Str} (he : e ∈ g) : lookupG g e.1 = some e.2 := by
  induction g with
  | nil => simp at he
  | cons a rest ih =>
    rw [List.map_cons, List.nodup_cons] at hk
    rcases List.mem_cons.mp he with rfl | he
    · simp [lookupG]
    · unfold lookupG
      by_cases ha : a.1 = e.1
      · exact absurd (List.mem_map.mpr ⟨e, he, ha.symm⟩) hk.1
      · rw [if_neg ha]
        exact ih hk.2 he

theorem mapM_lookup_ok {g : Graph} {n : Str} : ∀ {nbs : List Str}
    {tss : List (List (List Str))},
    nbs.mapM (fun m => match lookupG g m with
      | none => Except.error PyErr.keyError
      | some ks => Except.ok (ks.map (fun k => [n, m, k]))) = .ok tss →
    tss = nbs.map (fun m => ((lookupG g m).getD []).map (fun k => [n, m, k])) := by
  intro nbs
  induction nbs with
  | nil =>
    intro tss h
    have : ([] : List (List (List Str))) = tss := Except.ok.inj h
    simp [← this]
  | cons m rest ih =>
    intro tss h
    rw [List.mapM_cons] at h
    cases hl : lookupG g m with
    | none =>
      simp only [hl, exbind_error] at h
      cases h
    | some ks =>
      simp only [hl, exbind_ok] at h
      cases hrest : rest.mapM (fun m => match lookupG g m with
        | none => Except.error PyErr.keyError
        | some ks => Except.ok (ks.map (fun k => [n, m, k]))) with
      | error e => rw [hrest, exbind_error] at h; cases h
      | ok tss2 =>
        rw [hrest, exbind_ok] at h
        have : ks.map (fun k => [n, m, k]) :: tss2 = tss := by
          have h2 := Except.ok.inj h
          simpa using h2
        rw [← this, ih hrest, List.map_cons, hl]
        rfl

theorem edgeTriples_ok_eq {g : Graph} {n : Str} {ts : List (List Str)}
    (h : edgeTriples g n = .ok ts) : ts = tripleOf g n := by
  unfold edgeTriples at h
  split at h
  · cases h
  case h_2 nbs heq =>
    cases hm : nbs.mapM (fun m => match lookupG g m with
      | none => Except.error PyErr.keyError
      | some ks => Except.ok (ks.map (fun k => [n, m, k]))) with
    | error e => rw [hm, exbind_error] at h; cases h
    | ok tss =>
      rw [hm, exbind_ok] at h
      have hts : tss.flatten = ts := Except.ok.inj h
      rw [← hts, mapM_lookup_ok hm]
      unfold tripleOf
      rw [heq]
      simp [List.flatMap]

/-- The run invariant of the edge-pair engine: the paths so far are exactly
the triples of the already-popped prefix of the node queue. -/
def EdgeInv (g : Graph) (s : EState) : Prop :=
  (s.iteration = 0 ∧ s.paths = [] ∧ s.progress = .initP ∧ s.remaining = []) ∨
  (0 < s.iteration ∧ s.remaining = (g.map (·.1)).drop s.iteration ∧
    s.paths = (g.take s.iteration).flatMap (fun e => tripleOf g e.1) ∧
    (s.progress = .computed ∨ s.progress = .working) ∧
    (s.progress = .computed ↔ s.remaining = []))

theorem stepEdge_ok_inv {g : Graph} {cap : Int} {s s' : EState}
    (h : stepEdge g cap s = .ok s') (hnt : ¬ terminalProg s.progress)
    (hi : EdgeInv g s) : EdgeInv g s' := by
  simp only [stepEdge] at h
  rw [if_neg hnt] at h
  split at h
  · cases h
  · split at h
    · cases h
    case h_2 n rest heq =>
      cases hts : edgeTriples g n with
      | error e => rw [hts, exbind_error] at h; cases h
      | ok ts =>
        rw [hts, exbind_ok] at h
        have hs' : s' = ⟨s.paths ++ ts, s.iteration + 1,
            if rest = [] then .computed else .working, rest⟩ := (Except.ok.inj h).symm
        have heff : (if s.iteration = 0 then g.map (·.1) else s.remaining)
            = (g.map (·.1)).drop s.iteration ∧
            s.paths = (g.take s.iteration).flatMap (fun e => tripleOf g e.1) := by
          rcases hi with ⟨h0, hp, -, -⟩ | ⟨hpos, hrem, hp, -, -⟩
          · rw [if_pos h0, h0, hp]
            simp
          · rw [if_neg (by omega), hrem, hp]
            exact ⟨rfl, rfl⟩
        rw [heff.1] at heq
        have hkq : (g.map (·.1))[s.iteration]? = some n := by
          rw [← List.head?_drop, heq]
          rfl
        obtain ⟨e, hge, hen⟩ : ∃ e, g[s.iteration]? = some e ∧ e.1 = n := by
          rw [List.getElem?_map] at hkq
          cases hg : g[s.iteration]? with
          | none => rw [hg] at hkq; cases hkq
          | some e =>
            rw [hg] at hkq
            exact ⟨e, rfl, Option.some.inj hkq⟩
        right
        refine ⟨by simp [hs'], ?_, ?_, ?_, ?_⟩
        · rw [hs']
          show rest = (g.map (·.1)).drop (s.iteration + 1)
          rw [← List.tail_drop, heq]
          rfl
        · rw [hs']
          show s.paths ++ ts = (g.take (s.iteration + 1)).flatMap (fun e => tripleOf g e.1)
          rw [List.take_succ, hge, heff.2, edgeTriples_ok_eq hts]
          simp [hen]
        · rw [hs']
          split
          · exact Or.inl rfl
          · exact Or.inr rfl
        · rw [hs']
          show (if rest = [] then Prog.computed else Prog.working) = Prog.computed ↔ rest = []
          split
          case isTrue hr => simpa using hr
          case isFalse hr => simpa using hr

theorem stepEdge_terminal {g : Graph} {cap : Int} {s : EState}
    (ht : terminalProg s.progress) : stepEdge g cap s = .ok s := by
  simp only [stepEdge]
  rw [if_pos ht]

theorem runEdge_inv {g : Graph} {cap : Int} :
    ∀ {fuel : Nat} {s0 s : EState}, runEdge g cap fuel s0 = .ok (some s) →
      EdgeInv g s0 → EdgeInv g s ∧ s.progress = .computed := by
  intro fuel
  induction fuel with
  | zero => intro s0 s h; simp [runEdge] at h
  | succ n ih =>
    intro s0 s h h0
    simp only [runEdge] at h
    cases hst : stepEdge g cap s0 with
    | error e => rw [hst, exbind_error] at h; cases h
    | ok s1 =>
      rw [hst, exbind_ok] at h
      have h1 : EdgeInv g s1 := by
        by_cases hnt : terminalProg s0.progress
        · rw [stepEdge_terminal hnt] at hst
          exact (Except.ok.inj hst) ▸ h0
        · exact stepEdge_ok_inv hst hnt h0
      by_cases hp : s1.progress = .computed
      · rw [if_pos hp] at h
        have : s1 = s := Option.some.inj (Except.ok.inj h)
        subst this
        exact ⟨h1, hp⟩
      · rw [if_neg hp] at h
        exact ih h h1

theorem computeEdgePairs_inv {g : Graph} {cap : Int} {fuel : Nat}
    {out : List (List Str)} (h : computeEdgePairs g cap fuel = .ok (some out)) :
    ∃ s, runEdge g cap fuel initEState = .ok (some s) ∧ out = s.paths := by
  unfold computeEdgePairs at h
  cases hr : runEdge g cap fuel initEState with
  | error e => rw [hr, exbind_error] at h; cases h
  | ok o =>
    rw [hr, exbind_ok] at h
    cases o with
    | none => exact absurd (Except.ok.inj h) (by simp)
    | some s => exact ⟨s, rfl, (Option.some.inj (Except.ok.inj h)).symm⟩

/-- C6: whenever `compute_edge_pairs` completes it returns exactly one
`[n, m, k]` entry per pair of an `n→m` edge and an `m→k` edge, counted with
multiplicity, in node declaration order; and every non-terminal step pops
exactly one node from the queue and appends exactly that node's triples. -/
theorem c6_edge_pairs :
    (∀ (g : Graph) (cap : Int) (fuel : Nat) (out : List (List Str)),
      (g.map (·.1)).Nodup → computeEdgePairs g cap fuel = .ok (some out) →
      out = edgePairsSpec g) ∧
    (∀ (g : Graph) (cap : Int) (s s' : EState), ¬ terminalProg s.progress →
      stepEdge g cap s = .ok s' →
      ∃ n rest ts,
        (if s.iteration = 0 then g.map (·.1) else s.remaining) = n :: rest ∧
        s'.remaining = rest ∧ edgeTriples g n = .ok ts ∧
        s'.paths = s.paths ++ ts ∧ s'.iteration = s.iteration + 1) := by
  constructor
  · intro g cap fuel out hk h
    obtain ⟨s, hrun, rfl⟩ := computeEdgePairs_inv h
    obtain ⟨hinv, hcomp⟩ := runEdge_inv hrun (Or.inl ⟨rfl, rfl, rfl, rfl⟩)
    rcases hinv with ⟨-, -, hprog, -⟩ | ⟨-, hrem, hp, -, hiff⟩
    · rw [hcomp] at hprog; cases hprog
    · have hdone : (g.map (·.1)).drop s.iteration = [] := by
        rw [← hrem]
        exact hiff.mp hcomp
      have hlen : g.length ≤ s.iteration := by
        have := List.drop_eq_nil_iff.mp hdone
        simpa using this
      have htake : g.take s.iteration = g := List.take_of_length_le hlen
      rw [hp, htake]
      unfold edgePairsSpec
      refine flatMap_congr_mem ?_
      intro e he
      unfold tripleOf
      rw [lookupG_of_mem_nodup hk he]
      rfl
  · intro g cap s s' hnt h
    simp only [stepEdge] at h
    rw [if_neg hnt] at h
    split at h
    · cases h
    · split at h
      · cases h
      case h_2 n rest heq =>
        cases hts : edgeTriples g n with
        | error e => rw [hts, exbind_error] at h; cases h
        | ok ts =>
          rw [hts, exbind_ok] at h
          have hs' : s' = ⟨s.paths ++ ts, s.iteration + 1,
              if rest = [] then .computed else .working, rest⟩ :=
            (Except.ok.inj h).symm
          exact ⟨n, rest, ts, heq, by rw [hs'], hts, by rw [hs'], by rw [hs']⟩

/-- C6 witness: the spec's Scenario D, `"a b\nb c\nb d"`, yields exactly the
triples `[a,b,c]` and `[a,b,d]`. -/
theorem c6_witness :
    (([(pstr "a", [pstr "b"]), (pstr "b", [pstr "c", pstr "d"]), (pstr "c", []),
        (pstr "d", [])] : Graph).map (·.1)).Nodup ∧
    computeEdgePairs [(pstr "a", [pstr "b"]), (pstr "b", [pstr "c", pstr "d"]),
        (pstr "c", []), (pstr "d", [])] 100 10
      = .ok (some [[pstr "a", pstr "b", pstr "c"], [pstr "a", pstr "b", pstr "d"]]) ∧
    ([[pstr "a", pstr "b", pstr "c"], [pstr "a", pstr "b", pstr "d"]] : List (List Str))
      = edgePairsSpec [(pstr "a", [pstr "b"]), (pstr "b", [pstr "c", pstr "d"]),
        (pstr "c", []), (pstr "d", [])] :=
  ⟨by decide, rfl,
    c6_edge_pairs.1 [(pstr "a", [pstr "b"]), (pstr "b", [pstr "c", pstr "d"]),
      (pstr "c", []), (pstr "d", [])] 100 10
      [[pstr "a", pstr "b", pstr "c"], [pstr "a", pstr "b", pstr "d"]]
      (by decide) rfl⟩

/-! ## Claim C3: the two modules -/

/-- C3 counterexample: on `gAB` both modules complete without reaching any
iteration cap, but graph_coverage.py returns `[[a, ab]]` (its space-joined
substring check drops `[b]`, since `"b"` occurs inside `"a ab"`) while
prime_path_coverage.py returns `[[b], [a, ab]]` (its repr-based check keeps
`[b]`), so the two modules do not compute the same path list. -/
theorem c3_counterexample :
    computePrime gAB 100 10 = .ok (some [[pstr "a", pstr "ab"]]) ∧
    computePrimePPC gAB 10 = .ok (some [[pstr "b"], [pstr "a", pstr "ab"]]) ∧
    ([[pstr "a", pstr "ab"]] : List (List Str))
      ≠ [[pstr "b"], [pstr "a", pstr "ab"]] :=
  ⟨rfl, rfl, by decide⟩

theorem stepPrime_fromInit (g : Graph) (cap : Int) :
    stepPrime g cap initPState =
      (if ((1 : Nat) : Int) = cap then Except.error .iterLimit
       else do
        let r ← growRoundAll g (g.map fun e => [e.1])
        Except.ok ⟨r.1, 1, if r.2 then .working else .computed⟩) := rfl

theorem stepPrime_fromWorking (g : Graph) (cap : Int) (p0 : List (List Str)) (k : Nat) :
    stepPrime g cap ⟨p0, k + 1, .working⟩ =
      (if ((k + 2 : Nat) : Int) = cap then Except.error .iterLimit
       else do
        let r ← growRoundAll g p0
        Except.ok ⟨r.1, k + 2, if r.2 then .working else .computed⟩) := rfl

theorem runPrime_growPPC_aux (g : Graph) (cap : Int) :
    ∀ (f1 : Nat) {f2 k c : Nat} {p0 : List (List Str)} {s : PState}
      {ps2 : List (List Str)},
      runPrime g cap f1 ⟨p0, k + 1, .working⟩ = .ok (some s) →
      growPPC g f2 c p0 = .ok (some ps2) → s.paths = ps2 := by
  intro f1
  induction f1 with
  | zero =>
    intro f2 k c p0 s ps2 h1 h2
    simp [runPrime] at h1
  | succ n ih =>
    intro f2 k c p0 s ps2 h1 h2
    simp only [runPrime] at h1
    rw [stepPrime_fromWorking g cap p0 k] at h1
    cases f2 with
    | zero => simp [growPPC] at h2
    | succ m =>
      simp only [growPPC] at h2
      split at h2
      · cases h2
      · split at h1
        · cases h1
        · cases hr : growRoundAll g p0 with
          | error e =>
            rw [hr, exbind_error] at h1
            cases h1
          | ok r =>
            rw [hr, exbind_ok] at h1
            rw [hr, exbind_ok] at h2
            obtain ⟨out, ch⟩ := r
            rw [exbind_ok] at h1
            cases ch with
            | true =>
              have h1x : runPrime g cap n ⟨out, (k + 1) + 1, .working⟩
                  = .ok (some s) := h1
              have h2x : growPPC g m (c + 1) out = .ok (some ps2) := h2
              exact ih h1x h2x
            | false =>
              have h1x : (Except.ok (some (⟨out, k + 2, .computed⟩ : PState))
                  : Except PyErr (Option PState)) = .ok (some s) := h1
              have h2x : (Except.ok (some out)
                  : Except PyErr (Option (List (List Str)))) = .ok (some ps2) := h2
              have hs : (⟨out, k + 2, .computed⟩ : PState) = s :=
                Option.some.inj (Except.ok.inj h1x)
              have hps : out = ps2 := Option.some.inj (Except.ok.inj h2x)
              rw [← hs, ← hps]

/-- C3 (amended): the growth phases of the two modules agree — whenever the
graph_coverage.py driver converges and the prime_path_coverage.py growth
loop finishes, the two pre-cleanup converged path lists are equal; the
final outputs can still differ because the sub-path elimination passes use
different containment checks (space-joined substring vs Python-repr
substring). -/
theorem c3_amended (g : Graph) (cap : Int) (f1 f2 : Nat) (s : PState)
    (ps2 : List (List Str))
    (h1 : runPrime g cap f1 initPState = .ok (some s))
    (h2 : growPPC g f2 0 (g.map fun e => [e.1]) = .ok (some ps2)) :
    s.paths = ps2 := by
  cases f1 with
  | zero => simp [runPrime] at h1
  | succ n =>
    simp only [runPrime] at h1
    rw [stepPrime_fromInit g cap] at h1
    cases f2 with
    | zero => simp [growPPC] at h2
    | succ m =>
      simp only [growPPC] at h2
      split at h2
      · cases h2
      · split at h1
        · cases h1
        · cases hr : growRoundAll g (g.map fun e => [e.1]) with
          | error e =>
            rw [hr, exbind_error] at h1
            cases h1
          | ok r =>
            rw [hr, exbind_ok] at h1
            rw [hr, exbind_ok] at h2
            obtain ⟨out, ch⟩ := r
            rw [exbind_ok] at h1
            cases ch with
            | true =>
              have h1x : runPrime g cap n ⟨out, 0 + 1, .working⟩
                  = .ok (some s) := h1
              have h2x : growPPC g m 1 out = .ok (some ps2) := h2
              exact runPrime_growPPC_aux g cap n h1x h2x
            | false =>
              have h1x : (Except.ok (some (⟨out, 1, .computed⟩ : PState))
                  : Except PyErr (Option PState)) = .ok (some s) := h1
              have h2x : (Except.ok (some out)
                  : Except PyErr (Option (List (List Str)))) = .ok (some ps2) := h2
              have hs : (⟨out, 1, .computed⟩ : PState) = s :=
                Option.some.inj (Except.ok.inj h1x)
              have hps : out = ps2 := Option.some.inj (Except.ok.inj h2x)
              rw [← hs, ← hps]

/-- C3 witness: on the graph `a ↦ [b]` both modules' growth phases converge
to the same working set `[[a, b], [b]]`. -/
theorem c3_witness :
    runPrime [(pstr "a", [pstr "b"]), (pstr "b", [])] 100 5 initPState
        = .ok (some ⟨[[pstr "a", pstr "b"], [pstr "b"]], 2, .computed⟩) ∧
    growPPC [(pstr "a", [pstr "b"]), (pstr "b", [])] 5 0
        (([(pstr "a", [pstr "b"]), (pstr "b", [])] : Graph).map fun e => [e.1])
        = .ok (some [[pstr "a", pstr "b"], [pstr "b"]]) ∧
    (⟨[[pstr "a", pstr "b"], [pstr "b"]], 2, Prog.computed⟩ : PState).paths
        = [[pstr "a", pstr "b"], [pstr "b"]] :=
  ⟨rfl, rfl,
    c3_amended [(pstr "a", [pstr "b"]), (pstr "b", [])] 100 5 5 _ _ rfl rfl⟩

/-! ## Claim C9: the neighbor-closure invariant rules out key errors -/

theorem occursIn_hasKey {g : Graph} (hc : ClosedG g) {x : Str}
    (h : OccursIn g x) : hasKey g x = true := by
  obtain ⟨e, he, hx⟩ := h
  rcases hx with rfl | hx
  · exact hasKey_of_mem he
  · exact hc e he x hx

theorem exists_getLast? {p : List Str} (h : p ≠ []) :
    ∃ l, p.getLast? = some l ∧ l ∈ p := by
  induction p with
  | nil => exact absurd rfl h
  | cons a rest ih =>
    cases rest with
    | nil => exact ⟨a, rfl, by simp⟩
    | cons b bs =>
      obtain ⟨l, hl, hm⟩ := ih (by simp)
      exact ⟨l, by rw [List.getLast?_cons_cons, hl], List.mem_cons_of_mem a hm⟩

theorem stepPath_ok_of_keys {g : Graph} {p : List Str} (hne : p ≠ [])
    (hkeys : ∀ x ∈ p, hasKey g x = true) : ∃ r, stepPath g p = .ok r := by
  by_cases hnd : p.Nodup
  · obtain ⟨l, hl, hlm⟩ := exists_getLast? hne
    cases hlk : lookupG g l with
    | none =>
      have := hkeys l hlm
      rw [hasKey, hlk] at this
      cases this
    | some nbs => exact ⟨_, stepPath_eq_growResOf hnd hl hlk⟩
  · exact ⟨_, stepPath_dead hnd⟩

theorem growRound_ok_of_good {g : Graph} (hc : ClosedG g) :
    ∀ {ps : List (List Str)}, GoodPaths g ps → ∃ r, growRound g ps = .ok r := by
  intro ps
  induction ps with
  | nil => exact fun _ => ⟨_, rfl⟩
  | cons p rest ih =>
    intro hg
    obtain ⟨hpok, hocc⟩ := hg p (List.mem_cons_self p rest)
    obtain ⟨r1, hr1⟩ := stepPath_ok_of_keys hpok.1
      (fun x hx => occursIn_hasKey hc (hocc x hx))
    obtain ⟨r2, hr2⟩ := ih (fun q hq => hg q (List.mem_cons_of_mem p hq))
    exact ⟨(r1.path :: r2.1, r1.forks ++ r2.2.1, r1.changed || r2.2.2),
      by simp only [growRound, hr1, hr2, exbind_ok]⟩

theorem stepPrime_error_closed {g : Graph} (hc : ClosedG g) {cap : Int}
    {s : PState} (hg : GoodPaths g s.paths) {e : PyErr}
    (h : stepPrime g cap s = .error e) : e = .iterLimit := by
  simp only [stepPrime] at h
  split at h
  · cases h
  · split at h
    · cases h; rfl
    · have hpre : GoodPaths g
          (if s.iteration = 0 then g.map (fun e => [e.1]) else s.paths) := by
        split
        · exact goodPaths_seed g
        · exact hg
      obtain ⟨r, hr⟩ := growRound_ok_of_good hc hpre
      simp only [growRoundAll, hr, exbind_ok] at h
      cases h

theorem runPrime_error_closed {g : Graph} (hc : ClosedG g) {cap : Int} :
    ∀ {fuel : Nat} {s0 : PState} {e : PyErr}, GoodPaths g s0.paths →
      runPrime g cap fuel s0 = .error e → e = .iterLimit := by
  intro fuel
  induction fuel with
  | zero => intro s0 e h0 h; cases h
  | succ n ih =>
    intro s0 e h0 h
    simp only [runPrime] at h
    cases hst : stepPrime g cap s0 with
    | error e' =>
      rw [hst, exbind_error] at h
      cases h
      exact stepPrime_error_closed hc h0 hst
    | ok s1 =>
      rw [hst, exbind_ok] at h
      by_cases hp : s1.progress = .computed
      · rw [if_pos hp] at h; cases h
      · rw [if_neg hp] at h
        exact ih (stepPrime_good hst h0) h

theorem computePrime_keyError_free {g : Graph} (hc : ClosedG g) (cap : Int)
    (fuel : Nat) : computePrime g cap fuel ≠ .error .keyError := by
  intro h
  unfold computePrime at h
  cases hr : runPrime g cap fuel initPState with
  | error e =>
    rw [hr, exbind_error] at h
    have h1 : e = .keyError := Except.error.inj h
    have h2 : e = .iterLimit := runPrime_error_closed hc (goodPaths_init g) hr
    rw [h1] at h2
    cases h2
  | ok o =>
    rw [hr, exbind_ok] at h
    cases o with
    | none => cases h
    | some s => cases h

theorem edgeTriples_ok_of_key {g : Graph} (hc : ClosedG g) {n : Str}
    (hn : hasKey g n = true) : ∃ ts, edgeTriples g n = .ok ts := by
  cases hlk : lookupG g n with
  | none =>
    rw [hasKey, hlk] at hn
    cases hn
  | some nbs =>
    have hnbs : ∀ m ∈ nbs, hasKey g m = true :=
      fun m hm => hc (n, nbs) (lookupG_mem hlk) m hm
    have hmaps : ∃ tss, nbs.mapM (fun m => match lookupG g m with
        | none => Except.error PyErr.keyError
        | some ks => Except.ok (ks.map (fun k => [n, m, k]))) = .ok tss := by
      clear hlk
      induction nbs with
      | nil => exact ⟨[], rfl⟩
      | cons m rest ih =>
        obtain ⟨tss, hts⟩ := ih (fun x hx => hnbs x (List.mem_cons_of_mem m hx))
        have hm := hnbs m (List.mem_cons_self m rest)
        cases hlm : lookupG g m with
        | none =>
          rw [hasKey, hlm] at hm
          cases hm
        | some ks =>
          refine ⟨ks.map (fun k => [n, m, k]) :: tss, ?_⟩
          rw [List.mapM_cons]
          simp only [hlm, exbind_ok, hts]
          rfl
    obtain ⟨tss, htss⟩ := hmaps
    refine ⟨tss.flatten, ?_⟩
    unfold edgeTriples
    rw [hlk]
    simp only [htss, exbind_ok]

theorem stepEdge_error_closed {g : Graph} (hc : ClosedG g) {cap : Int}
    {s : EState} (hk : ∀ n ∈ s.remaining, hasKey g n = true) {e : PyErr}
    (h : stepEdge g cap s = .error e) : e = .iterLimit ∨ e = .indexError := by
  simp only [stepEdge] at h
  split at h
  · cases h
  · split at h
    · cases h; exact Or.inl rfl
    · split at h
      · cases h; exact Or.inr rfl
      case h_2 n rest heq =>
        have hn : hasKey g n = true := by
          have hmem : n ∈ (if s.iteration = 0 then g.map (·.1) else s.remaining) := by
            rw [heq]
            exact List.mem_cons_self n rest
          split at hmem
          · obtain ⟨e', he', rfl⟩ := List.mem_map.mp hmem
            exact hasKey_of_mem he'
          · exact hk n hmem
        obtain ⟨ts, hts⟩ := edgeTriples_ok_of_key hc hn
        rw [hts, exbind_ok] at h
        cases h

theorem stepEdge_keys {g : Graph} {cap : Int} {s s' : EState}
    (h : stepEdge g cap s = .ok s')
    (hk : ∀ n ∈ s.remaining, hasKey g n = true) :
    ∀ n ∈ s'.remaining, hasKey g n = true := by
  simp only [stepEdge] at h
  split at h
  · cases h; exact hk
  · split at h
    · cases h
    · split at h
      · cases h
      case h_2 n rest heq =>
        cases hts : edgeTriples g n with
        | error e => rw [hts, exbind_error] at h; cases h
        | ok ts =>
          rw [hts, exbind_ok] at h
          have hs' : s'.remaining = rest := by
            rw [← Except.ok.inj h]
          rw [hs']
          intro x hx
          have hmem : x ∈ (if s.iteration = 0 then g.map (·.1) else s.remaining) := by
            rw [heq]
            exact List.mem_cons_of_mem n hx
          split at hmem
          · obtain ⟨e', he', rfl⟩ := List.mem_map.mp hmem
            exact hasKey_of_mem he'
          · exact hk x hmem

theorem runEdge_keyError_free {g : Graph} (hc : ClosedG g) {cap : Int} :
    ∀ {fuel : Nat} {s0 : EState}, (∀ n ∈ s0.remaining, hasKey g n = true) →
      runEdge g cap fuel s0 ≠ .error .keyError := by
  intro fuel
  induction fuel with
  | zero => intro s0 h0 h; cases h
  | succ n ih =>
    intro s0 h0 h
    simp only [runEdge] at h
    cases hst : stepEdge g cap s0 with
    | error e' =>
      rw [hst, exbind_error] at h
      have h1 : e' = .keyError := Except.error.inj h
      rcases stepEdge_error_closed hc h0 hst with h2 | h2 <;>
        (rw [h1] at h2; cases h2)
    | ok s1 =>
      rw [hst, exbind_ok] at h
      by_cases hp : s1.progress = .computed
      · rw [if_pos hp] at h; cases h
      · rw [if_neg hp] at h
        exact ih (stepEdge_keys hst h0) h

theorem computeEdgePairs_keyError_free {g : Graph} (hc : ClosedG g) (cap : Int)
    (fuel : Nat) : computeEdgePairs g cap fuel ≠ .error .keyError := by
  intro h
  unfold computeEdgePairs at h
  cases hr : runEdge g cap fuel initEState with
  | error e =>
    rw [hr, exbind_error] at h
    have h1 : e = .keyError := Except.error.inj h
    exact runEdge_keyError_free hc (by intro n hn; simp [initEState] at hn)
      (h1 ▸ hr)
  | ok o =>
    rw [hr, exbind_ok] at h
    cases o with
    | none => cases h
    | some s => cases h

/-- C9: every graph produced by `parse_graph` satisfies the neighbor-closure
invariant (every node in any adjacency list is a key), and on any closed
graph neither engine can fail with a `KeyError` — every adjacency lookup is
on a present key. -/
theorem c9_neighbor_closure :
    (∀ (t : Str) (g : Graph), parseGraph t = .ok g → ClosedG g) ∧
    (∀ g : Graph, ClosedG g →
      (∀ (cap : Int) (fuel : Nat), computePrime g cap fuel ≠ .error .keyError) ∧
      (∀ (cap : Int) (fuel : Nat), computeEdgePairs g cap fuel ≠ .error .keyError)) := by
  constructor
  · intro t g h
    exact parseGraph_closed h
  · intro g hc
    exact ⟨fun cap fuel => computePrime_keyError_free hc cap fuel,
      fun cap fuel => computeEdgePairs_keyError_free hc cap fuel⟩

/-- C9 witness: the parsed graph of `"a b"` is closed and both engines run
on it without key errors. -/
theorem c9_witness :
    parseGraph (pstr "a b") = .ok [(pstr "a", [pstr "b"]), (pstr "b", [])] ∧
    ClosedG [(pstr "a", [pstr "b"]), (pstr "b", [])] ∧
    (computePrime [(pstr "a", [pstr "b"]), (pstr "b", [])] 100 5
      ≠ .error .keyError) ∧
    (computeEdgePairs [(pstr "a", [pstr "b"]), (pstr "b", [])] 100 5
      ≠ .error .keyError) :=
  ⟨rfl, c9_neighbor_closure.1 (pstr "a b") _ rfl,
    (c9_neighbor_closure.2 _ (c9_neighbor_closure.1 (pstr "a b") _ rfl)).1 100 5,
    (c9_neighbor_closure.2 _ (c9_neighbor_closure.1 (pstr "a b") _ rfl)).2 100 5⟩

end GCov
